import Mathlib

/-!
# Verification of go-merkletree (rjl493456442/go-merkletree)

Shallow embedding of `merkle_tree.go` and proofs about the claims of the
natural-language specification.

Modelling conventions, justified against the source:

* Weights are Go `float64` values in the source, but every weight the code
  accepts is a member of `validWeights = {1, 1/2, …, 1/1024}`; every sum,
  difference and power of two the code computes on those values is an exact
  dyadic rational well inside `float64` exactness range, so weights and
  positions are embedded as `ℚ`.
* Digests are byte sequences (`List ℕ`); the hash primitive `H` is an
  explicit parameter, following the specification, which treats the
  256-bit hash as a pluggable external function out of the repo scope.
* Go `*Entry` pointers are modelled by an `id : ℕ` field on `Entry`:
  pointer equality in the source (`leaf.Value == e` in `Prove`) is id
  equality, and padding allocates fresh ids (new allocations in Go are
  distinct from every existing pointer).
* The `Parent` back-pointers of tree nodes are modelled by storing, for
  each leaf, its path from the root (`false` = left child, `true` =
  right child); walking the parent chain in Go is exactly walking this
  path from the bottom.
* Go errors are values of an `Except`; `nil`-dereference and
  slice-out-of-range panics in `newTree` are modelled as dedicated error
  constructors (`scanOutOfRange`, `internalNil`) so that reachability of
  these panics is expressible.
-/

namespace GoMerkleTree

/-- Byte-sequence three-way comparison, mirroring Go `bytes.Compare`
(lexicographic; a proper leading subsequence is smaller). -/
def bytesCompare : List ℕ → List ℕ → Ordering
  | [], [] => .eq
  | [], _ :: _ => .lt
  | _ :: _, [] => .gt
  | a :: as, b :: bs =>
      if a < b then .lt
      else if b < a then .gt
      else bytesCompare as bs

/-- `bytes.Compare(a, b) < 0` in the source. -/
def byteLt (a b : List ℕ) : Bool := bytesCompare a b = Ordering.lt

/-- An entry of the tree: `Value` is the byte payload, `EntryWeight` the
dyadic weight.  `id` models the Go `*Entry` pointer identity. -/
structure Entry where
  id : ℕ
  value : List ℕ
  weight : ℚ
deriving DecidableEq, Repr

/-- The eleven valid weights, `validWeights` in the source. -/
def validWeights : List ℚ :=
  [1, 1/2, 1/4, 1/8, 1/16, 1/32, 1/64, 1/128, 1/256, 1/512, 1/1024]

/-- Membership test `validWeightsFlag[weight]` in the source. -/
def validWeight (w : ℚ) : Bool := validWeights.contains w

/-- A tree node: either a leaf owning an entry, or a branch with two
children (`Left`, `Right` in the source; both always present). -/
inductive Node where
  | leaf (e : Entry)
  | branch (l r : Node)
deriving DecidableEq, Repr

/-- `Node.Weight` of the source: entry weight for leaves, sum of the
children weights for branches. -/
def nodeWeight : Node → ℚ
  | .leaf e => e.weight
  | .branch l r => nodeWeight l + nodeWeight r

/-- `Node.Hash` of the source.  A leaf hashes its entry value; a branch
hashes the concatenation of the two children digests, the
lexicographically smaller one first.  Memoization in `Nodehash` is
modelled by purity: this is a function of the node alone. -/
def nodeHash (H : List ℕ → List ℕ) : Node → List ℕ
  | .leaf e => H e.value
  | .branch l r =>
      let hl := nodeHash H l
      let hr := nodeHash H r
      if byteLt hl hr then H (hl ++ hr) else H (hr ++ hl)

/-- The leaves of a node in left-to-right order, each with its path from
that node (`false` = left child).  This is the data carried by the
`Leaves` slice plus `Parent` chains in the source. -/
def enumLeaves : Node → List (Entry × List Bool)
  | .leaf e => [(e, [])]
  | .branch l r =>
      (enumLeaves l).map (fun p => (p.1, false :: p.2)) ++
      (enumLeaves r).map (fun p => (p.1, true :: p.2))

/-- The subtree of `t` reached by following path `p` from the root. -/
def subtreeAt : Node → List Bool → Option Node
  | t, [] => some t
  | .leaf _, _ :: _ => none
  | .branch l _, false :: p => subtreeAt l p
  | .branch _ r, true :: p => subtreeAt r p

/-- Error values of the package, plus the two panic modes of `newTree`
(slice out of range after a failed sibling scan, `nil` subtree root). -/
inductive MTError where
  | invalidWeight
  | weightSumOverflow
  | unknownEntry
  | invalidProof
  | invalidEntries
  | scanOutOfRange
  | internalNil
deriving DecidableEq, Repr

end GoMerkleTree

namespace GoMerkleTree

/-- The sibling scan of the final case of the `newTree` loop: starting
from accumulated weight `acc`, consume entries until the accumulated
weight equals `c` (the `subsum == current.Weight()` break in the
source).  Returns the consumed run and the remaining suffix; `none`
models the scan running off the end of the slice, after which the
source would panic with an out-of-range slice index. -/
def scanGo (c : ℚ) : ℚ → List Entry → Option (List Entry × List Entry)
  | _, [] => none
  | acc, e :: rest =>
      if acc + e.weight = c then some ([e], rest)
      else
        match scanGo c (acc + e.weight) rest with
        | none => none
        | some (p, q) => some (e :: p, q)

theorem scanGo_append (c : ℚ) :
    ∀ (acc : ℚ) (l p q : List Entry), scanGo c acc l = some (p, q) → p ++ q = l := by
  intro acc l
  induction l generalizing acc with
  | nil => intro p q h; simp [scanGo] at h
  | cons e rest ih =>
    intro p q h
    rw [scanGo] at h
    by_cases hc : acc + e.weight = c
    · rw [if_pos hc] at h
      cases h
      rfl
    · rw [if_neg hc] at h
      cases hq : scanGo c (acc + e.weight) rest with
      | none => rw [hq] at h; cases h
      | some pq =>
        rw [hq] at h
        cases h
        have := ih (acc + e.weight) pq.1 pq.2 (by rw [hq])
        simpa using congrArg (e :: ·) this

theorem scanGo_fst_ne_nil (c : ℚ) :
    ∀ (acc : ℚ) (l p q : List Entry), scanGo c acc l = some (p, q) → p ≠ [] := by
  intro acc l
  induction l generalizing acc with
  | nil => intro p q h; simp [scanGo] at h
  | cons e rest ih =>
    intro p q h
    rw [scanGo] at h
    by_cases hc : acc + e.weight = c
    · rw [if_pos hc] at h; cases h; simp
    · rw [if_neg hc] at h
      cases hq : scanGo c (acc + e.weight) rest with
      | none => rw [hq] at h; cases h
      | some pq => rw [hq] at h; cases h; simp

theorem scanGo_length_le (c : ℚ) (acc : ℚ) (l p q : List Entry)
    (h : scanGo c acc l = some (p, q)) : p.length ≤ l.length := by
  have := scanGo_append c acc l p q h
  have : p.length + q.length = l.length := by
    rw [← this]; simp
  omega

theorem scanGo_snd_length_lt (c : ℚ) (acc : ℚ) (l p q : List Entry)
    (h : scanGo c acc l = some (p, q)) : q.length < l.length := by
  have h1 := scanGo_append c acc l p q h
  have h2 := scanGo_fst_ne_nil c acc l p q h
  have h3 : p.length + q.length = l.length := by rw [← h1]; simp
  have : 1 ≤ p.length := List.length_pos.mpr h2
  omega

/-- Prepend a direction bit to each recorded leaf path (the effect, on
the path encoding, of hanging the accumulated subtree under a new
parent; in the source this is implicit in the `Parent` pointers). -/
def prependPath (b : Bool) (lvs : List (Entry × List Bool)) :
    List (Entry × List Bool) :=
  lvs.map (fun p => (p.1, b :: p.2))

mutual

/-- `newTree` of the source.  Returns the root node (`none` for the
empty slice, where the source returns `nil`) and the leaf list, each
leaf with its path from the returned root. -/
def newTree : List Entry → Except MTError (Option Node × List (Entry × List Bool))
  | [] => .ok (none, [])
  | [e] => .ok (some (.leaf e), [(e, [])])
  | e0 :: e1 :: rest =>
      if e0.weight = e1.weight then
        buildLoop (.branch (.leaf e0) (.leaf e1))
          [(e0, [false]), (e1, [true])] rest
      else .error .invalidEntries
termination_by l => (l.length, 0)
decreasing_by
  simp only [List.length_cons]
  exact Prod.Lex.left _ _ (by omega)

/-- The `for` loop of `newTree` after the initial pairing.  `cur` is the
accumulated subtree, `lvs` its leaves (with paths from `cur`), and the
list argument the remaining entries.  The source advances the loop index
by `len(subLeaves)` after a recursive call; that equals the length of
the scanned run (a consequence of `newTree` producing one leaf per
entry, proved below as part of the success inversion), so the loop
continues exactly at the suffix `q` returned by the scan. -/
def buildLoop (cur : Node) (lvs : List (Entry × List Bool)) :
    List Entry → Except MTError (Option Node × List (Entry × List Bool))
  | [] => .ok (some cur, lvs)
  | e :: rest =>
      if nodeWeight cur < e.weight then .error .invalidEntries
      else if nodeWeight cur = e.weight then
        buildLoop (.branch cur (.leaf e))
          (prependPath false lvs ++ [(e, [true])]) rest
      else
        match hs : scanGo (nodeWeight cur) 0 (e :: rest) with
        | none => .error .scanOutOfRange
        | some (p, q) =>
          match newTree p with
          | .error err => .error err
          | .ok (none, _) => .error .internalNil
          | .ok (some sub, subLvs) =>
            buildLoop (.branch cur sub)
              (prependPath false lvs ++ prependPath true subLvs) q
termination_by rest => (rest.length, 1)
decreasing_by
  · simp only [List.length_cons]
    exact Prod.Lex.left _ _ (by omega)
  · have hle := scanGo_length_le _ _ _ _ _ hs
    simp only [List.length_cons] at hle
    rcases Nat.lt_or_ge p.length (rest.length + 1) with h | h
    · exact Prod.Lex.left _ _ (by simpa using h)
    · have : p.length = rest.length + 1 := by omega
      simp only [List.length_cons, this]
      exact Prod.Lex.right _ (by omega)
  · have := scanGo_snd_length_lt _ _ _ _ _ hs
    simp only [List.length_cons] at this
    exact Prod.Lex.left _ _ (by simpa using this)

end

end GoMerkleTree

namespace GoMerkleTree

theorem validWeights_scaled (w : ℚ) (hw : w ∈ validWeights) :
    ∃ n : ℕ, 1 ≤ n ∧ w * 1024 = (n : ℚ) := by
  simp only [validWeights, List.mem_cons, List.not_mem_nil, or_false] at hw
  rcases hw with rfl | rfl | rfl | rfl | rfl | rfl | rfl | rfl | rfl | rfl | rfl
  · exact ⟨1024, by norm_num, by norm_num⟩
  · exact ⟨512, by norm_num, by norm_num⟩
  · exact ⟨256, by norm_num, by norm_num⟩
  · exact ⟨128, by norm_num, by norm_num⟩
  · exact ⟨64, by norm_num, by norm_num⟩
  · exact ⟨32, by norm_num, by norm_num⟩
  · exact ⟨16, by norm_num, by norm_num⟩
  · exact ⟨8, by norm_num, by norm_num⟩
  · exact ⟨4, by norm_num, by norm_num⟩
  · exact ⟨2, by norm_num, by norm_num⟩
  · exact ⟨1, by norm_num, by norm_num⟩

/-- One synthetic padding entry: `&Entry{EntryWeight: w}` in the source
(`nil` value), with a fresh id modelling the fresh allocation. -/
def padEntry (idv : ℕ) (w : ℚ) : Entry := ⟨idv, [], w⟩

theorem pad_measure_lt {missing w : ℚ} (hmem : w ∈ validWeights)
    (hle : w ≤ missing) :
    (⌈(missing - w) * 1024⌉).toNat < (⌈missing * 1024⌉).toNat := by
  obtain ⟨n, hn1, hn⟩ := validWeights_scaled w hmem
  have hsub : (missing - w) * 1024 = missing * 1024 - (n : ℚ) := by
    rw [sub_mul, hn]
  have hceil : ⌈(missing - w) * 1024⌉ = ⌈missing * 1024⌉ - (n : ℤ) := by
    rw [hsub]
    exact_mod_cast Int.ceil_sub_nat (missing * 1024) n
  have hge : (1 : ℚ) ≤ missing * 1024 := by
    calc (1 : ℚ) ≤ (n : ℚ) := by exact_mod_cast hn1
    _ = w * 1024 := hn.symm
    _ ≤ missing * 1024 := mul_le_mul_of_nonneg_right hle (by norm_num)
  have hcge : (1 : ℤ) ≤ ⌈missing * 1024⌉ := by
    have h2 : ⌈(1 : ℚ)⌉ ≤ ⌈missing * 1024⌉ := Int.ceil_le_ceil hge
    simpa using h2
  rw [hceil]
  omega

/-- The padding loop of `NewMerkleTree`: while the deficit `missing` is
positive, append a synthetic empty entry carrying the first (hence
largest) valid weight that does not exceed the deficit.  `nextId`
supplies fresh ids for the new allocations.  If no valid weight fits
(possible only when the deficit is positive yet below `1/1024`, which
never arises from validated entries) the source loops forever; this
embedding returns the list unchanged in that unreachable case. -/
def padLoop (missing : ℚ) (nextId : ℕ) (entries : List Entry) : List Entry :=
  if h : 0 < missing then
    match hf : validWeights.find? (fun w => w ≤ missing) with
    | none => entries
    | some w =>
        padLoop (missing - w) (nextId + 1) (entries ++ [padEntry nextId w])
  else entries
termination_by (⌈missing * 1024⌉).toNat
decreasing_by
  exact pad_measure_lt (List.mem_of_find?_eq_some hf)
    (by simpa using List.find?_some hf)

/-- The tree structure returned by `NewMerkleTree`: root node and the
leaves, each leaf with its path from the root (modelling the `Leaves`
slice and the `Parent` chains). -/
structure MerkleTree where
  root : Node
  leaves : List (Entry × List Bool)
deriving DecidableEq, Repr

/-- `NewMerkleTree` of the source: validate the weights, check the sum,
pad the deficit with synthetic entries, sort ascending by weight (the
source uses an unstable `sort.Sort`; `insertionSort` realizes one
admissible ascending order) and build the tree.  A `nil` root from
`newTree` (never produced for a nonempty slice) would be dereferenced
by the caller; it is mapped to `internalNil`. -/
def newMerkleTree (entries : List Entry) : Except MTError MerkleTree :=
  if entries.all (fun e => validWeight e.weight) then
    let sum := (entries.map (fun e => e.weight)).sum
    if 1 < sum then .error .weightSumOverflow
    else
      let fresh := (entries.map (fun e => e.id)).foldr max 0 + 1
      let padded := padLoop (1 - sum) fresh entries
      let sorted := padded.insertionSort (fun a b => a.weight ≤ b.weight)
      match newTree sorted with
      | .error err => .error err
      | .ok (none, _) => .error .internalNil
      | .ok (some root, lvs) => .ok ⟨root, lvs⟩
  else .error .invalidWeight

/-- `MerkleTree.Hash` of the source: the root digest. -/
def MerkleTree.treeHash (H : List ℕ → List ℕ) (t : MerkleTree) : List ℕ :=
  nodeHash H t.root

/-- The proof emitted for the leaf at path `p` in tree `t`: first the
hash of the node at the end of the path, then the sibling digest at
each level walking from the leaf back to the root (the `Parent`-chain
walk of `Prove`).  The leaf-with-leftover-path case never arises for
paths recorded during construction. -/
def proofList (H : List ℕ → List ℕ) : Node → List Bool → List (List ℕ)
  | t, [] => [nodeHash H t]
  | .leaf e, _ :: _ => [nodeHash H (.leaf e)]
  | .branch l r, false :: p => proofList H l p ++ [nodeHash H r]
  | .branch l r, true :: p => proofList H r p ++ [nodeHash H l]

/-- `MerkleTree.Prove` of the source: scan the whole leaf slice keeping
the last leaf whose entry pointer equals the queried pointer (the
source does not break out of the scan), fail with `ErrUnknownEntry` if
none matches, else emit the leaf hash and the sibling chain. -/
def MerkleTree.prove (H : List ℕ → List ℕ) (t : MerkleTree) (e : Entry) :
    Except MTError (List (List ℕ)) :=
  match (t.leaves.filter (fun lp => lp.1.id == e.id)).getLast? with
  | none => .error .unknownEntry
  | some lp => .ok (proofList H t.root lp.2)

/-- The recombination loop of `VerifyProof`: `i` is the Go loop index
(starting at 1), `current` and `pos` the loop state.  `2 ^ (i - 1)`
is the exact value of `math.Pow(2, float64(i-1))`. -/
def verifyLoop (H : List ℕ → List ℕ) :
    List ℕ → ℚ → ℕ → List (List ℕ) → (List ℕ × ℚ)
  | current, pos, _, [] => (current, pos)
  | current, pos, i, s :: rest =>
      if byteLt current s then
        verifyLoop H (H (current ++ s)) pos (i + 1) rest
      else
        verifyLoop H (H (s ++ current)) (pos + 2 ^ (i - 1)) (i + 1) rest

/-- `VerifyProof` of the source.  In the last arm `rest.length` equals
`len(proof) - 1`. -/
def verifyProof (H : List ℕ → List ℕ) (root : List ℕ) (proof : List (List ℕ)) :
    Except MTError (ℚ × ℚ) :=
  match proof with
  | [] => .error .invalidProof
  | [d] => if root = d then .ok (0, 1) else .error .invalidProof
  | d :: rest =>
      let res := verifyLoop H d 0 1 rest
      if root = res.1 then
        .ok (res.2 / 2 ^ rest.length, (res.2 + 1) / 2 ^ rest.length)
      else .error .invalidProof

end GoMerkleTree

namespace GoMerkleTree

/-- Modelled from the spec (section 4.6 `ProofVerifier`): the
verification procedure transcribed from the specification text, to be
compared with `verifyProof` translated from the source.  `proof[i]` is
accessed by index for `i` from `1` to `len(proof) - 1`, and the summand
added to `pos` on the not-smaller branch is `2^(i-1)`. -/
def verifyProofSpec (H : List ℕ → List ℕ) (rootDigest : List ℕ)
    (proof : List (List ℕ)) : Except MTError (ℚ × ℚ) :=
  if proof.isEmpty then .error .invalidProof
  else if proof.length = 1 then
    if proof[0]! = rootDigest then .ok (0, 1) else .error .invalidProof
  else
    let n := proof.length
    let step := fun (st : List ℕ × ℚ) (i : ℕ) =>
      if byteLt st.1 proof[i]! then (H (st.1 ++ proof[i]!), st.2)
      else (H (proof[i]! ++ st.1), st.2 + 2 ^ (i - 1))
    let res := ((List.range (n - 1)).map (· + 1)).foldl step (proof[0]!, 0)
    if res.1 = rootDigest then
      .ok (res.2 / 2 ^ (n - 1), (res.2 + 1) / 2 ^ (n - 1))
    else .error .invalidProof

/-- The pair of two digests ordered by byte comparison, smaller first,
as the specification words the branch combination rule. -/
def sortPair (a b : List ℕ) : List ℕ × List ℕ :=
  if byteLt b a then (b, a) else (a, b)

/-- The digest siblings along path `p` in `t`, bottom (leaf side) to
top: the tail of the emitted proof. -/
def sibs (H : List ℕ → List ℕ) : Node → List Bool → List (List ℕ)
  | _, [] => []
  | .leaf _, _ :: _ => []
  | .branch l r, false :: p => sibs H l p ++ [nodeHash H r]
  | .branch l r, true :: p => sibs H r p ++ [nodeHash H l]

/-- The position numerator `VerifyProof` accumulates for the leaf at
path `p`: at each level the summand `2^(level)` is taken exactly when
the digest on the leaf side is not lexicographically smaller than the
sibling digest. -/
def posOf (H : List ℕ → List ℕ) : Node → List Bool → ℚ
  | _, [] => 0
  | .leaf _, _ :: _ => 0
  | .branch l r, false :: p =>
      posOf H l p +
        (if byteLt (nodeHash H l) (nodeHash H r) then 0 else 2 ^ p.length)
  | .branch l r, true :: p =>
      posOf H r p +
        (if byteLt (nodeHash H r) (nodeHash H l) then 0 else 2 ^ p.length)

/-- The verification intervals of the leaves of `t` in left-to-right
(leaf list) order when `t` occupies `[lo, lo + w)`: a child is shifted
to the upper half exactly when its digest is not lexicographically
smaller than its sibling digest, mirroring the `pos` rule of
`VerifyProof`. -/
def structIvs (H : List ℕ → List ℕ) : Node → ℚ → ℚ → List (ℚ × ℚ)
  | .leaf _, lo, w => [(lo, lo + w)]
  | .branch l r, lo, w =>
      structIvs H l
        (lo + (if byteLt (nodeHash H l) (nodeHash H r) then 0 else w / 2)) (w / 2) ++
      structIvs H r
        (lo + (if byteLt (nodeHash H r) (nodeHash H l) then 0 else w / 2)) (w / 2)

/-- The intervals of the leaves of `t` listed in position order: the
child with the smaller digest first.  (The tie case follows the `else`
branch; ties are exactly what the separation hypothesis excludes.) -/
def orderedIvs (H : List ℕ → List ℕ) : Node → ℚ → ℚ → List (ℚ × ℚ)
  | .leaf _, lo, w => [(lo, lo + w)]
  | .branch l r, lo, w =>
      if byteLt (nodeHash H l) (nodeHash H r) then
        orderedIvs H l lo (w / 2) ++ orderedIvs H r (lo + w / 2) (w / 2)
      else
        orderedIvs H r lo (w / 2) ++ orderedIvs H l (lo + w / 2) (w / 2)

/-- `ChainFrom a b ivs`: the intervals of `ivs` are nonempty, each
starts where the previous one ends, the first starts at `a` and the
last ends at `b`.  `ChainFrom 0 1` is the tiling of `[0,1)` described
by the partition property. -/
def ChainFrom : ℚ → ℚ → List (ℚ × ℚ) → Prop
  | a, b, [] => a = b
  | a, b, (x, y) :: rest => x = a ∧ x < y ∧ ChainFrom y b rest

def chainFromDec : (a b : ℚ) → (l : List (ℚ × ℚ)) → Decidable (ChainFrom a b l)
  | a, b, [] => decidable_of_iff (a = b) Iff.rfl
  | a, b, (x, y) :: rest =>
      haveI := chainFromDec y b rest
      decidable_of_iff (x = a ∧ x < y ∧ ChainFrom y b rest) Iff.rfl

instance (a b : ℚ) (l : List (ℚ × ℚ)) : Decidable (ChainFrom a b l) :=
  chainFromDec a b l

/-- Every branch node of `t` has two children with distinct digests. -/
def Separated (H : List ℕ → List ℕ) : Node → Prop
  | .leaf _ => True
  | .branch l r => nodeHash H l ≠ nodeHash H r ∧ Separated H l ∧ Separated H r

def separatedDec (H : List ℕ → List ℕ) : (t : Node) → Decidable (Separated H t)
  | .leaf _ => .isTrue trivial
  | .branch l r =>
      haveI := separatedDec H l
      haveI := separatedDec H r
      decidable_of_iff (nodeHash H l ≠ nodeHash H r ∧ Separated H l ∧ Separated H r)
        Iff.rfl

instance (H : List ℕ → List ℕ) : DecidablePred (Separated H) :=
  fun t => separatedDec H t

/-- Collect, for each listed entry, the interval returned by
`VerifyProof(RootDigest(tree), Prove(tree, e))`, failing if any proof
generation or verification fails. -/
def collectIntervals (H : List ℕ → List ℕ) (t : MerkleTree) :
    List Entry → Except MTError (List (ℚ × ℚ))
  | [] => .ok []
  | e :: rest =>
      match t.prove H e with
      | .error err => .error err
      | .ok pf =>
        match verifyProof H (t.treeHash H) pf with
        | .error err => .error err
        | .ok iv =>
          match collectIntervals H t rest with
          | .error err => .error err
          | .ok ivs => .ok (iv :: ivs)

/-- Sort a list of intervals by start point, as the partition property
prescribes. -/
def sortByStart (ivs : List (ℚ × ℚ)) : List (ℚ × ℚ) :=
  ivs.insertionSort (fun a b => a.1 ≤ b.1)

end GoMerkleTree

namespace GoMerkleTree

theorem bytesCompare_self : ∀ a : List ℕ, bytesCompare a a = .eq := by
  intro a
  induction a with
  | nil => rfl
  | cons x xs ih => simp [bytesCompare, ih]

theorem bytesCompare_swap :
    ∀ a b : List ℕ, bytesCompare b a = (bytesCompare a b).swap := by
  intro a
  induction a with
  | nil => intro b; cases b <;> rfl
  | cons x xs ih =>
    intro b
    cases b with
    | nil => rfl
    | cons y ys =>
      simp only [bytesCompare]
      rcases lt_trichotomy x y with h | h | h
      · rw [if_neg (by omega), if_pos h, if_pos h]
        rfl
      · rw [if_neg (by omega), if_neg (by omega), if_neg (by omega),
          if_neg (by omega)]
        exact ih ys
      · rw [if_pos h, if_neg (by omega), if_pos h]
        rfl

theorem bytesCompare_eq_iff : ∀ a b : List ℕ, bytesCompare a b = .eq ↔ a = b := by
  intro a
  induction a with
  | nil =>
    intro b
    cases b <;> simp [bytesCompare]
  | cons x xs ih =>
    intro b
    cases b with
    | nil => simp [bytesCompare]
    | cons y ys =>
      simp only [bytesCompare]
      rcases lt_trichotomy x y with h | h | h
      · rw [if_pos h]
        simp only [List.cons.injEq]
        constructor
        · intro hc; cases hc
        · rintro ⟨rfl, _⟩; omega
      · rw [if_neg (by omega), if_neg (by omega)]
        rw [ih ys]
        simp [h]
      · rw [if_neg (by omega), if_pos h]
        simp only [List.cons.injEq]
        constructor
        · intro hc; cases hc
        · rintro ⟨rfl, _⟩; omega

theorem byteLt_asymm {a b : List ℕ} (h : byteLt a b = true) : byteLt b a = false := by
  simp only [byteLt, decide_eq_true_eq] at h
  simp only [byteLt, decide_eq_false_iff_not]
  rw [bytesCompare_swap a b, h]
  intro hc
  cases hc

theorem byteLt_antisymm {a b : List ℕ}
    (h1 : byteLt a b = false) (h2 : byteLt b a = false) : a = b := by
  simp only [byteLt, decide_eq_false_iff_not] at h1 h2
  rw [bytesCompare_swap a b] at h2
  rw [← bytesCompare_eq_iff a b]
  cases hc : bytesCompare a b with
  | lt => exact absurd hc h1
  | eq => rfl
  | gt => rw [hc] at h2; exact absurd rfl h2

/-- C4.  Canonical hash combination: a leaf node hashes to the hash of
its entry value; a branch node hashes to `H(smaller ++ larger)` where
the two children digests are ordered by lexicographic byte comparison,
independently of which child is structurally left or right.  Repeated
calls returning the same cached digest is modelled by `nodeHash` being
a pure function of the node: the cache of the source is write-once. -/
theorem hash_canonical_combination (H : List ℕ → List ℕ) :
    (∀ e : Entry, nodeHash H (.leaf e) = H e.value) ∧
    (∀ l r : Node,
      nodeHash H (.branch l r) =
        H ((sortPair (nodeHash H l) (nodeHash H r)).1 ++
           (sortPair (nodeHash H l) (nodeHash H r)).2) ∧
      nodeHash H (.branch l r) = nodeHash H (.branch r l)) := by
  refine ⟨fun e => rfl, fun l r => ?_⟩
  cases hrl : byteLt (nodeHash H r) (nodeHash H l) with
  | true =>
    have hlr := byteLt_asymm hrl
    simp [nodeHash, sortPair, hrl, hlr]
  | false =>
    cases hlr : byteLt (nodeHash H l) (nodeHash H r) with
    | true => simp [nodeHash, sortPair, hrl, hlr]
    | false =>
      have heq := byteLt_antisymm hlr hrl
      simp [nodeHash, sortPair, hrl, hlr, heq]

end GoMerkleTree

namespace GoMerkleTree

theorem getElem_bang_of_drop (proof : List (List ℕ)) (i : ℕ)
    (s : List ℕ) (rest : List (List ℕ)) (h : proof.drop i = s :: rest) :
    proof[i]! = s := by
  have hlen : i < proof.length := by
    by_contra hc
    push_neg at hc
    rw [List.drop_eq_nil_of_le hc] at h
    cases h
  have h0 : (proof.drop i)[0]? = some s := by rw [h]; simp
  rw [List.getElem?_drop] at h0
  have hsome : proof[i]? = some s := by simpa using h0
  have hget : proof[i] = s := by
    rw [List.getElem?_eq_getElem hlen] at hsome
    exact Option.some.inj hsome
  rw [getElem!_pos proof i hlen, hget]

theorem drop_succ_of_drop (proof : List (List ℕ)) (i : ℕ)
    (s : List ℕ) (rest : List (List ℕ)) (h : proof.drop i = s :: rest) :
    proof.drop (i + 1) = rest := by
  have : proof.drop (i + 1) = (proof.drop i).drop 1 := by
    rw [List.drop_drop]
  rw [this, h]
  rfl

theorem spec_fold_eq_verifyLoop (H : List ℕ → List ℕ) (proof : List (List ℕ)) :
    ∀ (rest : List (List ℕ)) (i : ℕ) (cur : List ℕ) (pos : ℚ),
      proof.drop i = rest →
      ((List.range rest.length).map (· + i)).foldl
        (fun (st : List ℕ × ℚ) (j : ℕ) =>
          if byteLt st.1 proof[j]! then (H (st.1 ++ proof[j]!), st.2)
          else (H (proof[j]! ++ st.1), st.2 + 2 ^ (j - 1))) (cur, pos) =
      verifyLoop H cur pos i rest := by
  intro rest
  induction rest with
  | nil => intro i cur pos _; rfl
  | cons s rest' ih =>
    intro i cur pos hdrop
    have hs : proof[i]! = s := getElem_bang_of_drop proof i s rest' hdrop
    have hdrop' : proof.drop (i + 1) = rest' := drop_succ_of_drop proof i s rest' hdrop
    have hrange : (List.range (rest'.length + 1)).map (· + i) =
        i :: (List.range rest'.length).map (· + (i + 1)) := by
      rw [List.range_succ_eq_map]
      simp only [List.map_cons, Nat.zero_add]
      congr 1
      rw [List.map_map]
      congr 1
      funext m
      simp [Nat.succ_eq_add_one]
      omega
    simp only [List.length_cons, hrange, List.foldl_cons, hs]
    by_cases hb : byteLt cur s = true
    · rw [if_pos hb, ih (i + 1) (H (cur ++ s)) pos hdrop']
      simp only [verifyLoop]
      rw [if_pos hb]
    · rw [if_neg hb, ih (i + 1) (H (s ++ cur)) (pos + 2 ^ (i - 1)) hdrop']
      simp only [verifyLoop]
      rw [if_neg hb]

/-- C3.  `VerifyProof` behaves exactly as the specification describes
it: the translation of the source agrees with `verifyProofSpec`, the
procedure transcribed from the specification text (empty proof fails,
singleton succeeds on the interval `[0,1)` iff it equals the root,
longer proofs fold `H` over the digests with the lexicographic rule,
shifting `pos` by `2^(i-1)` on the not-smaller branch, and succeed with
`[pos/2^(n-1), (pos+1)/2^(n-1))` iff the folded digest equals the
root), for every hash, root digest and digest sequence. -/
theorem verifyProof_eq_spec (H : List ℕ → List ℕ) (root : List ℕ)
    (proof : List (List ℕ)) : verifyProof H root proof = verifyProofSpec H root proof := by
  match proof with
  | [] => rfl
  | [d] =>
    have hspec : verifyProofSpec H root [d] =
        if d = root then .ok (0, 1) else .error .invalidProof := rfl
    rw [hspec]
    simp only [verifyProof]
    by_cases h : root = d
    · rw [if_pos h, if_pos h.symm]
    · rw [if_neg h, if_neg (fun hc => h hc.symm)]
  | d :: s :: rest =>
    have hfold := spec_fold_eq_verifyLoop H (d :: s :: rest) (s :: rest) 1 d 0 rfl
    have h0 : (d :: s :: rest)[0]! = d := rfl
    simp only [verifyProofSpec, List.isEmpty_cons, Bool.false_eq_true, if_false,
      List.length_cons, h0, Nat.add_sub_cancel]
    rw [if_neg (by omega)]
    simp only [List.length_cons] at hfold
    rw [hfold]
    simp only [verifyProof]
    by_cases h : root = (verifyLoop H d 0 1 (s :: rest)).1
    · rw [if_pos h, if_pos h.symm]
      simp [List.length_cons]
    · rw [if_neg h, if_neg (fun hc => h hc.symm)]

end GoMerkleTree

namespace GoMerkleTree

theorem sibs_nil (H : List ℕ → List ℕ) (t : Node) : sibs H t [] = [] := by
  cases t <;> rfl

theorem proofList_nil (H : List ℕ → List ℕ) (t : Node) :
    proofList H t [] = [nodeHash H t] := by
  cases t <;> rfl

theorem posOf_nil (H : List ℕ → List ℕ) (t : Node) : posOf H t [] = 0 := by
  cases t <;> rfl

theorem sibs_length (H : List ℕ → List ℕ) :
    ∀ (p : List Bool) (t s : Node), subtreeAt t p = some s →
      (sibs H t p).length = p.length := by
  intro p
  induction p with
  | nil => intro t s _; rw [sibs_nil]; rfl
  | cons b p' ih =>
    intro t s h
    cases t with
    | leaf e => cases b <;> simp [subtreeAt] at h
    | branch l r =>
      cases b with
      | false =>
        simp only [subtreeAt] at h
        simp [sibs, ih l s h]
      | true =>
        simp only [subtreeAt] at h
        simp [sibs, ih r s h]

theorem proofList_eq_cons (H : List ℕ → List ℕ) :
    ∀ (p : List Bool) (t s : Node), subtreeAt t p = some s →
      proofList H t p = nodeHash H s :: sibs H t p := by
  intro p
  induction p with
  | nil =>
    intro t s h
    simp only [subtreeAt, Option.some.injEq] at h
    subst h
    rw [proofList_nil, sibs_nil]
  | cons b p' ih =>
    intro t s h
    cases t with
    | leaf e => cases b <;> simp [subtreeAt] at h
    | branch l r =>
      cases b with
      | false =>
        simp only [subtreeAt] at h
        simp [proofList, sibs, ih l s h]
      | true =>
        simp only [subtreeAt] at h
        simp [proofList, sibs, ih r s h]

theorem verifyLoop_append (H : List ℕ → List ℕ) :
    ∀ (xs : List (List ℕ)) (y cur : List ℕ) (pos : ℚ) (i : ℕ),
      verifyLoop H cur pos i (xs ++ [y]) =
        (if byteLt (verifyLoop H cur pos i xs).1 y then
          (H ((verifyLoop H cur pos i xs).1 ++ y), (verifyLoop H cur pos i xs).2)
        else
          (H (y ++ (verifyLoop H cur pos i xs).1),
            (verifyLoop H cur pos i xs).2 + 2 ^ (i + xs.length - 1))) := by
  intro xs
  induction xs with
  | nil =>
    intro y cur pos i
    simp [verifyLoop]
  | cons x xs' ih =>
    intro y cur pos i
    simp only [List.cons_append, verifyLoop, List.append_eq, List.length_cons]
    by_cases hb : byteLt cur x = true
    · rw [if_pos hb, if_pos hb, ih]
      have hexp : i + 1 + xs'.length - 1 = i + (xs'.length + 1) - 1 := by omega
      rw [hexp]
    · rw [if_neg hb, if_neg hb, ih]
      have hexp : i + 1 + xs'.length - 1 = i + (xs'.length + 1) - 1 := by omega
      rw [hexp]

/-- Walking the sibling chain of a valid leaf path recombines, level by
level, to the digest of each enclosing subtree, and accumulates exactly
the position numerator `posOf`. -/
theorem verifyLoop_path (H : List ℕ → List ℕ) :
    ∀ (p : List Bool) (t s : Node), subtreeAt t p = some s →
      verifyLoop H (nodeHash H s) 0 1 (sibs H t p) = (nodeHash H t, posOf H t p) := by
  intro p
  induction p with
  | nil =>
    intro t s h
    simp only [subtreeAt, Option.some.injEq] at h
    subst h
    rw [sibs_nil, posOf_nil]
    rfl
  | cons b p' ih =>
    intro t s h
    cases t with
    | leaf e => cases b <;> simp [subtreeAt] at h
    | branch l r =>
      have hone : ∀ n : ℕ, (1 : ℕ) + n - 1 = n := fun n => by omega
      cases b with
      | false =>
        simp only [subtreeAt] at h
        simp only [sibs, posOf]
        rw [verifyLoop_append, ih l s h]
        have hlen : (sibs H l p').length = p'.length := sibs_length H p' l s h
        simp only [hlen, hone]
        by_cases hb : byteLt (nodeHash H l) (nodeHash H r) = true
        · rw [if_pos hb]
          simp only [nodeHash]
          rw [if_pos hb, if_pos hb]
          simp
        · rw [if_neg hb]
          simp only [nodeHash]
          rw [if_neg hb, if_neg hb]
      | true =>
        simp only [subtreeAt] at h
        simp only [sibs, posOf]
        rw [verifyLoop_append, ih r s h]
        have hlen : (sibs H r p').length = p'.length := sibs_length H p' r s h
        simp only [hlen, hone]
        by_cases hb : byteLt (nodeHash H r) (nodeHash H l) = true
        · rw [if_pos hb]
          have hlr : byteLt (nodeHash H l) (nodeHash H r) = false := byteLt_asymm hb
          simp only [nodeHash]
          rw [if_neg (by simp [hlr]), if_pos hb]
          simp
        · rw [if_neg hb]
          simp only [nodeHash]
          rw [if_neg hb]
          by_cases hlr : byteLt (nodeHash H l) (nodeHash H r) = true
          · rw [if_pos hlr]
          · have heq := byteLt_antisymm (by simpa using hlr) (by simpa using hb)
            rw [if_neg hlr, heq]

/-- The proof emitted for a valid leaf path verifies against the root
digest and decodes to the interval determined by `posOf`. -/
theorem verifyProof_proofList (H : List ℕ → List ℕ) (t : Node) (p : List Bool)
    (e : Entry) (h : subtreeAt t p = some (.leaf e)) :
    verifyProof H (nodeHash H t) (proofList H t p) =
      .ok (posOf H t p / 2 ^ p.length, (posOf H t p + 1) / 2 ^ p.length) := by
  rw [proofList_eq_cons H p t (.leaf e) h]
  cases hsb : sibs H t p with
  | nil =>
    have hp : p = [] := by
      have hl := sibs_length H p t (.leaf e) h
      rw [hsb] at hl
      exact List.length_eq_zero.mp (by simpa using hl.symm)
    subst hp
    have ht : t = Node.leaf e := by simpa [subtreeAt] using h
    subst ht
    simp only [verifyProof, if_pos rfl, posOf_nil, List.length_nil]
    norm_num
  | cons x rest =>
    have hloop := verifyLoop_path H p t (.leaf e) h
    rw [hsb] at hloop
    have hlen : (x :: rest).length = p.length := by
      rw [← hsb]
      exact sibs_length H p t (.leaf e) h
    simp only [verifyProof, hloop]
    rw [if_pos trivial, hlen]

end GoMerkleTree

namespace GoMerkleTree

theorem enumLeaves_branch (l r : Node) :
    enumLeaves (.branch l r) =
      prependPath false (enumLeaves l) ++ prependPath true (enumLeaves r) := rfl

theorem map_fst_prependPath (b : Bool) (lvs : List (Entry × List Bool)) :
    (prependPath b lvs).map Prod.fst = lvs.map Prod.fst := by
  simp [prependPath]

theorem enumLeaves_map_fst_branch (l r : Node) :
    (enumLeaves (.branch l r)).map Prod.fst =
      (enumLeaves l).map Prod.fst ++ (enumLeaves r).map Prod.fst := by
  rw [enumLeaves_branch]
  simp [map_fst_prependPath]

theorem enumLeaves_subtreeAt :
    ∀ (t : Node) (e : Entry) (p : List Bool),
      (e, p) ∈ enumLeaves t → subtreeAt t p = some (.leaf e) := by
  intro t
  induction t with
  | leaf e0 =>
    intro e p hm
    simp only [enumLeaves, List.mem_singleton, Prod.mk.injEq] at hm
    obtain ⟨rfl, rfl⟩ := hm
    rfl
  | branch l r ihl ihr =>
    intro e p hm
    rw [enumLeaves_branch] at hm
    rcases List.mem_append.mp hm with hm | hm
    · simp only [prependPath, List.mem_map, Prod.mk.injEq] at hm
      obtain ⟨⟨e', p'⟩, hmem, he, hp⟩ := hm
      rw [← hp, ← he]
      exact ihl e' p' hmem
    · simp only [prependPath, List.mem_map, Prod.mk.injEq] at hm
      obtain ⟨⟨e', p'⟩, hmem, he, hp⟩ := hm
      rw [← hp, ← he]
      exact ihr e' p' hmem

/-- Success inversion of the `newTree` loop: if the loop, started with
subtree `cur` and its leaves, returns without error, the result is a
root whose leaf enumeration extends that of `cur` by exactly the
remaining entries in order.  `oracle` is the corresponding inversion for
recursive `newTree` calls on short lists. -/
theorem buildLoop_ok_inv (n : ℕ)
    (oracle : ∀ (l : List Entry) (ro : Option Node) (lvs : List (Entry × List Bool)),
      l.length ≤ n → newTree l = .ok (ro, lvs) →
      (l = [] ∧ ro = none ∧ lvs = []) ∨
      (∃ rt, ro = some rt ∧ lvs = enumLeaves rt ∧ (enumLeaves rt).map Prod.fst = l)) :
    ∀ (m : ℕ) (rest : List Entry), rest.length ≤ m → rest.length ≤ n →
    ∀ (cur : Node) (ro : Option Node) (lvs : List (Entry × List Bool)),
      buildLoop cur (enumLeaves cur) rest = .ok (ro, lvs) →
      ∃ rt, ro = some rt ∧ lvs = enumLeaves rt ∧
        (enumLeaves rt).map Prod.fst = (enumLeaves cur).map Prod.fst ++ rest := by
  intro m
  induction m with
  | zero =>
    intro rest hm _ cur ro lvs h
    have hnil : rest = [] := List.length_eq_zero.mp (by omega)
    subst hnil
    rw [buildLoop] at h
    cases h
    exact ⟨cur, rfl, rfl, by simp⟩
  | succ m ih =>
    intro rest hm hn cur ro lvs h
    cases rest with
    | nil =>
      rw [buildLoop] at h
      cases h
      exact ⟨cur, rfl, rfl, by simp⟩
    | cons e rest' =>
      rw [buildLoop] at h
      split at h
      · cases h
      · split at h
        · -- equal-weight case
          have hcast : prependPath false (enumLeaves cur) ++ [(e, [true])] =
              enumLeaves (.branch cur (.leaf e)) := rfl
          rw [hcast] at h
          obtain ⟨rt, hro, hlvs, hmap⟩ :=
            ih rest' (by simp at hm; omega) (by simp at hn; omega)
              (.branch cur (.leaf e)) ro lvs h
          refine ⟨rt, hro, hlvs, ?_⟩
          rw [hmap, enumLeaves_map_fst_branch]
          simp [enumLeaves]
        · -- sibling-subtree case
          split at h
          · cases h
          · rename_i p q hs
            split at h
            · cases h
            · cases h
            · rename_i sub subLvs hnp
              have hpq := scanGo_append _ _ _ _ _ hs
              have hpn := scanGo_fst_ne_nil _ _ _ _ _ hs
              have hplen : p.length ≤ rest'.length + 1 := by
                have := scanGo_length_le _ _ _ _ _ hs
                simpa using this
              rcases oracle p (some sub) subLvs
                  (by simp at hn; omega) hnp with hbad | ⟨rt', hro', hlvs', hmap'⟩
              · exact absurd hbad.1 hpn
              · injection hro' with hh
                subst hh
                have hcast : prependPath false (enumLeaves cur) ++ prependPath true subLvs =
                    enumLeaves (.branch cur sub) := by
                  rw [hlvs']
                  exact (enumLeaves_branch cur sub).symm
                have hqlen : q.length < rest'.length + 1 := by
                  have := scanGo_snd_length_lt _ _ _ _ _ hs
                  simpa using this
                rw [hcast] at h
                obtain ⟨rt, hro, hlvs, hmap⟩ :=
                  ih q (by simp at hm; omega) (by simp at hn; omega)
                    (.branch cur sub) ro lvs h
                refine ⟨rt, hro, hlvs, ?_⟩
                rw [hmap, enumLeaves_map_fst_branch, hmap']
                rw [List.append_assoc, hpq]

/-- Success inversion of `newTree`: a successful build of a nonempty
entry list returns a root whose left-to-right leaf enumeration carries
exactly the input entries in order, recorded with their paths. -/
theorem newTree_ok_inv :
    ∀ (n : ℕ) (l : List Entry), l.length ≤ n →
    ∀ (ro : Option Node) (lvs : List (Entry × List Bool)),
      newTree l = .ok (ro, lvs) →
      (l = [] ∧ ro = none ∧ lvs = []) ∨
      (∃ rt, ro = some rt ∧ lvs = enumLeaves rt ∧ (enumLeaves rt).map Prod.fst = l) := by
  intro n
  induction n using Nat.strong_induction_on with
  | _ n ihn =>
    intro l hl ro lvs h
    match l with
    | [] =>
      rw [newTree] at h
      cases h
      exact Or.inl ⟨rfl, rfl, rfl⟩
    | [e] =>
      rw [newTree] at h
      cases h
      exact Or.inr ⟨.leaf e, rfl, rfl, rfl⟩
    | e0 :: e1 :: rest =>
      rw [newTree] at h
      split at h
      · have hcast : [(e0, [false]), (e1, [true])] =
            enumLeaves (.branch (.leaf e0) (.leaf e1)) := rfl
        rw [hcast] at h
        have hln : rest.length + 2 ≤ n := by simpa using hl
        have oracle : ∀ (l' : List Entry) (ro' : Option Node)
            (lvs' : List (Entry × List Bool)),
            l'.length ≤ rest.length + 1 → newTree l' = .ok (ro', lvs') →
            (l' = [] ∧ ro' = none ∧ lvs' = []) ∨
            (∃ rt, ro' = some rt ∧ lvs' = enumLeaves rt ∧
              (enumLeaves rt).map Prod.fst = l') :=
          fun l' ro' lvs' hlen' h' =>
            ihn (rest.length + 1) (by omega) l' hlen' ro' lvs' h'
        obtain ⟨rt, hro, hlvs, hmap⟩ :=
          buildLoop_ok_inv (rest.length + 1) oracle rest.length rest le_rfl
            (by omega) (.branch (.leaf e0) (.leaf e1)) ro lvs h
        refine Or.inr ⟨rt, hro, hlvs, ?_⟩
        rw [hmap]
        rfl
      · cases h

end GoMerkleTree

namespace GoMerkleTree

/-! Unfolding lemmas restating the equations of the recursive
definitions through plain (non-dependent) case conditions, for use in
both the invariant proofs and concrete evaluations. -/

theorem padLoop_nonpos (missing : ℚ) (nid : ℕ) (entries : List Entry)
    (h : ¬ 0 < missing) : padLoop missing nid entries = entries := by
  rw [padLoop, dif_neg h]

theorem padLoop_found (missing : ℚ) (nid : ℕ) (entries : List Entry) (w : ℚ)
    (h : 0 < missing)
    (hf : validWeights.find? (fun x => x ≤ missing) = some w) :
    padLoop missing nid entries =
      padLoop (missing - w) (nid + 1) (entries ++ [padEntry nid w]) := by
  rw [padLoop, dif_pos h]
  split
  · rename_i hnone
    rw [hf] at hnone
    cases hnone
  · rename_i w' hsome
    rw [hf] at hsome
    injection hsome with hh
    rw [hh]

theorem padLoop_none (missing : ℚ) (nid : ℕ) (entries : List Entry)
    (h : 0 < missing)
    (hf : validWeights.find? (fun x => x ≤ missing) = none) :
    padLoop missing nid entries = entries := by
  rw [padLoop, dif_pos h]
  split
  · rfl
  · rename_i w' hsome
    rw [hf] at hsome
    cases hsome

theorem newTree_nil : newTree [] = .ok (none, []) := by rw [newTree]

theorem newTree_single (e : Entry) :
    newTree [e] = .ok (some (.leaf e), [(e, [])]) := by rw [newTree]

theorem newTree_cons₂ (e0 e1 : Entry) (rest : List Entry)
    (h : e0.weight = e1.weight) :
    newTree (e0 :: e1 :: rest) =
      buildLoop (.branch (.leaf e0) (.leaf e1))
        [(e0, [false]), (e1, [true])] rest := by
  rw [newTree, if_pos h]

theorem newTree_cons₂_ne (e0 e1 : Entry) (rest : List Entry)
    (h : ¬ e0.weight = e1.weight) :
    newTree (e0 :: e1 :: rest) = .error .invalidEntries := by
  rw [newTree, if_neg h]

theorem buildLoop_nil (cur : Node) (lvs : List (Entry × List Bool)) :
    buildLoop cur lvs [] = .ok (some cur, lvs) := by rw [buildLoop]

theorem buildLoop_lt (cur : Node) (lvs : List (Entry × List Bool))
    (e : Entry) (rest : List Entry) (h : nodeWeight cur < e.weight) :
    buildLoop cur lvs (e :: rest) = .error .invalidEntries := by
  rw [buildLoop, if_pos h]

theorem buildLoop_eqw (cur : Node) (lvs : List (Entry × List Bool))
    (e : Entry) (rest : List Entry) (h1 : ¬ nodeWeight cur < e.weight)
    (h2 : nodeWeight cur = e.weight) :
    buildLoop cur lvs (e :: rest) =
      buildLoop (.branch cur (.leaf e))
        (prependPath false lvs ++ [(e, [true])]) rest := by
  rw [buildLoop, if_neg h1, if_pos h2]

theorem buildLoop_scan_none (cur : Node) (lvs : List (Entry × List Bool))
    (e : Entry) (rest : List Entry) (h1 : ¬ nodeWeight cur < e.weight)
    (h2 : ¬ nodeWeight cur = e.weight)
    (hs : scanGo (nodeWeight cur) 0 (e :: rest) = none) :
    buildLoop cur lvs (e :: rest) = .error .scanOutOfRange := by
  rw [buildLoop, if_neg h1, if_neg h2]
  split
  · rfl
  · rename_i p q hsome
    rw [hs] at hsome
    cases hsome

theorem buildLoop_scan (cur : Node) (lvs : List (Entry × List Bool))
    (e : Entry) (rest p q : List Entry) (h1 : ¬ nodeWeight cur < e.weight)
    (h2 : ¬ nodeWeight cur = e.weight)
    (hs : scanGo (nodeWeight cur) 0 (e :: rest) = some (p, q)) :
    buildLoop cur lvs (e :: rest) =
      (match newTree p with
       | .error err => .error err
       | .ok (none, _) => .error .internalNil
       | .ok (some sub, subLvs) =>
          buildLoop (.branch cur sub)
            (prependPath false lvs ++ prependPath true subLvs) q) := by
  rw [buildLoop, if_neg h1, if_neg h2]
  split
  · rename_i hnone
    rw [hs] at hnone
    cases hnone
  · rename_i p' q' hsome
    rw [hs] at hsome
    injection hsome with hh
    injection hh with hp hq
    rw [hp, hq]

end GoMerkleTree

namespace GoMerkleTree

theorem padLoop_suffix : ∀ (k : ℕ) (missing : ℚ) (nid : ℕ) (entries : List Entry),
    (⌈missing * 1024⌉).toNat ≤ k →
    ∃ pads, padLoop missing nid entries = entries ++ pads := by
  intro k
  induction k with
  | zero =>
    intro missing nid entries hk
    by_cases h : 0 < missing
    · cases hf : validWeights.find? (fun x => x ≤ missing) with
      | none => exact ⟨[], by rw [padLoop_none _ _ _ h hf, List.append_nil]⟩
      | some w =>
        exfalso
        have hmem := List.mem_of_find?_eq_some hf
        have hle : w ≤ missing := by simpa using List.find?_some hf
        have := pad_measure_lt hmem hle
        omega
    · exact ⟨[], by rw [padLoop_nonpos _ _ _ h, List.append_nil]⟩
  | succ k ih =>
    intro missing nid entries hk
    by_cases h : 0 < missing
    · cases hf : validWeights.find? (fun x => x ≤ missing) with
      | none => exact ⟨[], by rw [padLoop_none _ _ _ h hf, List.append_nil]⟩
      | some w =>
        have hmem := List.mem_of_find?_eq_some hf
        have hle : w ≤ missing := by simpa using List.find?_some hf
        have hdec := pad_measure_lt hmem hle
        obtain ⟨pads, hp⟩ :=
          ih (missing - w) (nid + 1) (entries ++ [padEntry nid w]) (by omega)
        refine ⟨padEntry nid w :: pads, ?_⟩
        rw [padLoop_found _ _ _ w h hf, hp, List.append_assoc]
        rfl
    · exact ⟨[], by rw [padLoop_nonpos _ _ _ h, List.append_nil]⟩

/-- C1.  Round trip: for every entry list accepted by `NewMerkleTree`
and every entry `e` the tree was built from, `Prove` followed by
`VerifyProof` against the root digest succeeds, returning an interval
and no error — for any hash function. -/
theorem round_trip (H : List ℕ → List ℕ) (entries : List Entry)
    (t : MerkleTree) (e : Entry) (hb : newMerkleTree entries = .ok t)
    (he : e ∈ entries) :
    ∃ (pf : List (List ℕ)) (s f : ℚ),
      t.prove H e = .ok pf ∧ verifyProof H (t.treeHash H) pf = .ok (s, f) := by
  simp only [newMerkleTree] at hb
  split at hb
  · split at hb
    · cases hb
    · split at hb
      · cases hb
      · cases hb
      · rename_i root lvs hnt
        cases hb
        obtain ⟨pads, hpads⟩ :=
          padLoop_suffix ((⌈(1 - (entries.map (fun e => e.weight)).sum) * 1024⌉).toNat)
            _ _ entries le_rfl
        rw [hpads] at hnt
        set sorted :=
          (entries ++ pads).insertionSort (fun a b => a.weight ≤ b.weight) with hsorted
        have hesorted : e ∈ sorted := by
          rw [hsorted, List.mem_insertionSort]
          exact List.mem_append_left _ he
        rcases newTree_ok_inv sorted.length sorted le_rfl _ _ hnt with
          ⟨hnil, _, _⟩ | ⟨rt, hro, hlvs, hmap⟩
        · rw [hnil] at hesorted
          exact absurd hesorted (List.not_mem_nil e)
        · injection hro with hrt
          subst hrt
          have hememap : e ∈ (enumLeaves root).map Prod.fst := by
            rw [hmap]; exact hesorted
          obtain ⟨lp, hlpmem, hlpe⟩ := List.mem_map.mp hememap
          have hfilmem : lp ∈ lvs.filter (fun x => x.1.id == e.id) := by
            rw [List.mem_filter, hlvs]
            exact ⟨hlpmem, by rw [hlpe]; simp⟩
          cases hgl : (lvs.filter (fun x => x.1.id == e.id)).getLast? with
          | none =>
            exfalso
            have : lvs.filter (fun x => x.1.id == e.id) = [] := by
              cases hfil : lvs.filter (fun x => x.1.id == e.id) with
              | nil => rfl
              | cons a as =>
                rw [hfil] at hgl
                rcases List.getLast?_isSome (l := a :: as) |>.mpr (by simp) with _
                simp [List.getLast?_eq_none_iff] at hgl
            rw [this] at hfilmem
            exact absurd hfilmem (List.not_mem_nil lp)
          | some lp0 =>
            have hlp0mem : lp0 ∈ lvs.filter (fun x => x.1.id == e.id) := by
              obtain ⟨ys, hys⟩ := List.getLast?_eq_some_iff.mp hgl
              rw [hys]
              simp
            have hlp0lvs : lp0 ∈ enumLeaves root := by
              rw [← hlvs]
              exact (List.mem_filter.mp hlp0mem).1
            have hsub : subtreeAt root lp0.2 = some (.leaf lp0.1) :=
              enumLeaves_subtreeAt root lp0.1 lp0.2 (by
                rcases lp0 with ⟨a, b⟩
                exact hlp0lvs)
            refine ⟨proofList H root lp0.2,
              posOf H root lp0.2 / 2 ^ lp0.2.length,
              (posOf H root lp0.2 + 1) / 2 ^ lp0.2.length, ?_, ?_⟩
            · rw [MerkleTree.prove]
              rw [hgl]
            · exact verifyProof_proofList H root lp0.2 lp0.1 hsub
  · cases hb

end GoMerkleTree

namespace GoMerkleTree

/-- A simple injective hash used to instantiate the pluggable hash
parameter in concrete examples. -/
def consHash : List ℕ → List ℕ := fun l => 0 :: l

/-- The README example entries `{0x01,0x02}/0.5` and `{0x03,0x04}/0.25`. -/
def exEntriesA : List Entry := [⟨1, [1, 2], 1/2⟩, ⟨2, [3, 4], 1/4⟩]

/-- The tree built from `exEntriesA` (one `0.25` padding entry). -/
def exTreeA : MerkleTree :=
  ⟨.branch (.branch (.leaf ⟨2, [3, 4], 1/4⟩) (.leaf ⟨3, [], 1/4⟩))
    (.leaf ⟨1, [1, 2], 1/2⟩),
   [(⟨2, [3, 4], 1/4⟩, [false, false]), (⟨3, [], 1/4⟩, [false, true]),
    (⟨1, [1, 2], 1/2⟩, [true])]⟩

theorem build_exA : newMerkleTree exEntriesA = .ok exTreeA := by
  simp only [newMerkleTree, exEntriesA, exTreeA]
  norm_num [validWeight, validWeights]
  rw [padLoop_found (1/4) 3 _ (1/4) (by norm_num)
    (by norm_num [validWeights, List.find?])]
  rw [padLoop_nonpos _ _ _ (by norm_num)]
  norm_num [padEntry, List.insertionSort, List.orderedInsert]
  rw [newTree_cons₂ _ _ _ (by norm_num)]
  rw [buildLoop_eqw _ _ _ _ (by norm_num [nodeWeight]) (by norm_num [nodeWeight])]
  rw [buildLoop_nil]
  norm_num [prependPath]

/-- C10.  The empty entry list builds without error: padding appends a
single synthetic entry of weight `1` with empty value (and the first
fresh id), the tree is the single leaf owning it, the leaf list has
exactly one element, and the root digest is the hash of the empty byte
sequence. -/
theorem empty_build (H : List ℕ → List ℕ) :
    newMerkleTree [] = .ok ⟨.leaf ⟨1, [], 1⟩, [(⟨1, [], 1⟩, [])]⟩ ∧
    (⟨.leaf ⟨1, [], 1⟩, [(⟨1, [], 1⟩, [])]⟩ : MerkleTree).leaves.length = 1 ∧
    MerkleTree.treeHash H ⟨.leaf ⟨1, [], 1⟩, [(⟨1, [], 1⟩, [])]⟩ = H [] := by
  refine ⟨?_, rfl, rfl⟩
  simp only [newMerkleTree]
  norm_num [validWeight]
  rw [padLoop_found 1 1 _ 1 (by norm_num) (by rfl)]
  rw [padLoop_nonpos _ _ _ (by norm_num)]
  norm_num [padEntry, List.insertionSort, List.orderedInsert]
  rw [newTree_single]

end GoMerkleTree

namespace GoMerkleTree

/-- Witness for C1 at the README example: `Prove` plus `VerifyProof`
succeed on the first entry. -/
theorem round_trip_witness :
    ∃ (pf : List (List ℕ)) (s f : ℚ),
      MerkleTree.prove consHash exTreeA ⟨1, [1, 2], 1/2⟩ = .ok pf ∧
      verifyProof consHash (exTreeA.treeHash consHash) pf = .ok (s, f) :=
  round_trip consHash exEntriesA exTreeA ⟨1, [1, 2], 1/2⟩ build_exA
    (by simp [exEntriesA])

/-- A one-entry tree used as counterexample material. -/
def exTreeB : MerkleTree := ⟨.leaf ⟨1, [5], 1⟩, [(⟨1, [5], 1⟩, [])]⟩

theorem build_exB : newMerkleTree [⟨1, [5], 1⟩] = .ok exTreeB := by
  simp only [newMerkleTree, exTreeB]
  norm_num [validWeight, validWeights]
  rw [padLoop_nonpos _ _ _ (by norm_num)]
  norm_num [List.insertionSort, List.orderedInsert]
  rw [newTree_single]

/-- Counterexample to C7 as stated: the entry `⟨2,[5],1⟩` is equal by
value (same byte value, same weight) to the entry `⟨1,[5],1⟩` the tree
was built from, but it is a different object (a different pointer in
the source, a different `id` here), and `Prove` fails with
`ErrUnknownEntry` instead of succeeding: the source compares the
`*Entry` pointers (`leaf.Value == e`), not the values. -/
theorem prove_value_equal_fails :
    newMerkleTree [⟨1, [5], 1⟩] = .ok exTreeB ∧
    (⟨2, [5], 1⟩ : Entry).value = (⟨1, [5], 1⟩ : Entry).value ∧
    (⟨2, [5], 1⟩ : Entry).weight = (⟨1, [5], 1⟩ : Entry).weight ∧
    MerkleTree.prove consHash exTreeB ⟨2, [5], 1⟩ = .error .unknownEntry := by
  refine ⟨build_exB, rfl, rfl, ?_⟩
  rw [MerkleTree.prove]
  simp [exTreeB, List.filter]

/-- C7 amended.  `Prove` locates the leaf by pointer equality, not
value equality: for every built tree, it succeeds exactly when the
queried entry is one of the `Entry` objects held by the tree leaves
(id equality models pointer equality), and fails with `ErrUnknownEntry`
whenever no leaf holds that object — even for an entry equal by value
to one the tree was built from. -/
theorem prove_id_characterization (H : List ℕ → List ℕ) (entries : List Entry)
    (t : MerkleTree) (e : Entry) (hb : newMerkleTree entries = .ok t) :
    ((∃ lp ∈ t.leaves, lp.1.id = e.id) → ∃ pf, t.prove H e = .ok pf) ∧
    ((∀ lp ∈ t.leaves, lp.1.id ≠ e.id) → t.prove H e = .error .unknownEntry) := by
  constructor
  · rintro ⟨lp, hmem, hid⟩
    have hfil : lp ∈ t.leaves.filter (fun x => x.1.id == e.id) := by
      rw [List.mem_filter]
      exact ⟨hmem, by simp [hid]⟩
    cases hgl : (t.leaves.filter (fun x => x.1.id == e.id)).getLast? with
    | none =>
      exfalso
      rw [List.getLast?_eq_none_iff] at hgl
      rw [hgl] at hfil
      exact absurd hfil (List.not_mem_nil lp)
    | some lp0 =>
      exact ⟨proofList H t.root lp0.2, by rw [MerkleTree.prove, hgl]⟩
  · intro hall
    have hfil : t.leaves.filter (fun x => x.1.id == e.id) = [] := by
      rw [List.filter_eq_nil_iff]
      intro a ha
      simpa using hall a ha
    rw [MerkleTree.prove, hfil]
    rfl

/-- Witness for the amended C7 at the one-entry tree: proving the very
entry object succeeds, and the success hypothesis is discharged by the
leaf itself. -/
theorem prove_id_characterization_witness :
    ∃ pf, MerkleTree.prove consHash exTreeB ⟨1, [5], 1⟩ = .ok pf :=
  (prove_id_characterization consHash [⟨1, [5], 1⟩] exTreeB ⟨1, [5], 1⟩
    build_exB).1 ⟨(⟨1, [5], 1⟩, []), by simp [exTreeB], rfl⟩

end GoMerkleTree

namespace GoMerkleTree

/-- `w = 2^(-k)` for a natural `k`: the shape shared by all valid
weights and by every subtree weight the builder accumulates. -/
def DyadicPow (w : ℚ) : Prop := ∃ k : ℕ, w = ((2 : ℚ) ^ k)⁻¹

/-- `x` is a natural multiple of `w`. -/
def MulOf (w x : ℚ) : Prop := ∃ n : ℕ, x = (n : ℚ) * w

theorem validWeights_dyadic (w : ℚ) (hw : w ∈ validWeights) : DyadicPow w := by
  simp only [validWeights, List.mem_cons, List.not_mem_nil, or_false] at hw
  rcases hw with rfl | rfl | rfl | rfl | rfl | rfl | rfl | rfl | rfl | rfl | rfl
  · exact ⟨0, by norm_num⟩
  · exact ⟨1, by norm_num⟩
  · exact ⟨2, by norm_num⟩
  · exact ⟨3, by norm_num⟩
  · exact ⟨4, by norm_num⟩
  · exact ⟨5, by norm_num⟩
  · exact ⟨6, by norm_num⟩
  · exact ⟨7, by norm_num⟩
  · exact ⟨8, by norm_num⟩
  · exact ⟨9, by norm_num⟩
  · exact ⟨10, by norm_num⟩

theorem DyadicPow.pos {w : ℚ} (h : DyadicPow w) : 0 < w := by
  obtain ⟨k, rfl⟩ := h
  positivity

theorem DyadicPow.le_one {w : ℚ} (h : DyadicPow w) : w ≤ 1 := by
  obtain ⟨k, rfl⟩ := h
  rw [inv_le_one_iff₀]
  right
  exact one_le_pow₀ (by norm_num)

/-- Comparison of dyadic powers mirrors (reversed) comparison of the
exponents. -/
theorem dyadicPow_le_iff (i j : ℕ) :
    ((2 : ℚ) ^ i)⁻¹ ≤ ((2 : ℚ) ^ j)⁻¹ ↔ j ≤ i := by
  rw [inv_le_inv₀ (by positivity) (by positivity)]
  exact pow_le_pow_iff_right₀ (by norm_num)

theorem dyadicPow_lt_iff (i j : ℕ) :
    ((2 : ℚ) ^ i)⁻¹ < ((2 : ℚ) ^ j)⁻¹ ↔ j < i := by
  rw [inv_lt_inv₀ (by positivity) (by positivity)]
  exact pow_lt_pow_iff_right₀ (by norm_num)

/-- A smaller dyadic power divides a larger one (with a power-of-two
natural quotient). -/
theorem mulOf_of_dyadic_le {a b : ℚ} (ha : DyadicPow a) (hb : DyadicPow b)
    (h : a ≤ b) : MulOf a b := by
  obtain ⟨i, rfl⟩ := ha
  obtain ⟨j, rfl⟩ := hb
  have hji : j ≤ i := (dyadicPow_le_iff i j).mp h
  refine ⟨2 ^ (i - j), ?_⟩
  push_cast
  rw [eq_comm, mul_inv_eq_iff_eq_mul₀ (by positivity)]
  rw [eq_comm, inv_mul_eq_div, div_eq_iff (by positivity), ← pow_add]
  congr 1
  omega

theorem MulOf.zero (w : ℚ) : MulOf w 0 := ⟨0, by norm_num⟩

theorem MulOf.add {w x y : ℚ} (hx : MulOf w x) (hy : MulOf w y) :
    MulOf w (x + y) := by
  obtain ⟨n, rfl⟩ := hx
  obtain ⟨m, rfl⟩ := hy
  exact ⟨n + m, by push_cast; ring⟩

theorem MulOf.self (w : ℚ) : MulOf w w := ⟨1, by norm_num⟩

theorem MulOf.sub {w x y : ℚ} (hw : 0 < w) (hx : MulOf w x) (hy : MulOf w y)
    (hle : y ≤ x) : MulOf w (x - y) := by
  obtain ⟨n, rfl⟩ := hx
  obtain ⟨m, rfl⟩ := hy
  have hnm : m ≤ n := by
    by_contra hc
    push_neg at hc
    have : (n : ℚ) < (m : ℚ) := by exact_mod_cast hc
    nlinarith
  refine ⟨n - m, ?_⟩
  have : ((n - m : ℕ) : ℚ) = (n : ℚ) - (m : ℚ) := by
    push_cast [Nat.cast_sub hnm]
    ring
  rw [this]
  ring

theorem MulOf.le_of_pos {w x : ℚ} (hw : 0 < w) (h : MulOf w x) (hx : 0 < x) :
    w ≤ x := by
  obtain ⟨n, rfl⟩ := h
  rcases Nat.eq_zero_or_pos n with rfl | hn
  · norm_num at hx
  · have : (1 : ℚ) ≤ (n : ℚ) := by exact_mod_cast hn
    nlinarith

theorem sum_mulOf {w : ℚ} : ∀ (r : List ℚ), (∀ x ∈ r, MulOf w x) →
    MulOf w r.sum := by
  intro r
  induction r with
  | nil => intro _; exact MulOf.zero w
  | cons x rest ih =>
    intro h
    rw [List.sum_cons]
    exact (h x (by simp)).add (ih (fun y hy => h y (by simp [hy])))

theorem list_sum_nonneg_of_mem {r : List ℚ} (h : ∀ x ∈ r, 0 ≤ x) :
    0 ≤ r.sum := by
  induction r with
  | nil => simp
  | cons x rest ih =>
    rw [List.sum_cons]
    have hx := h x (by simp)
    have hrest := ih (fun z hz => h z (by simp [hz]))
    linarith

theorem list_sum_pos_of_mem {r : List ℚ} (h : ∀ x ∈ r, 0 < x) (hne : r ≠ []) :
    0 < r.sum := by
  cases r with
  | nil => exact absurd rfl hne
  | cons x rest =>
    rw [List.sum_cons]
    have hx := h x (by simp)
    have hrest : 0 ≤ rest.sum :=
      list_sum_nonneg_of_mem (fun z hz => (h z (by simp [hz])).le)
    linarith

/-- The parity core: a dyadic power `c` plus a nonempty sum of dyadics
all strictly greater than `c` can never itself be a dyadic power.  This
single fact makes both "the first two sorted entries have equal weight"
and "the next entry never outweighs the accumulated subtree". -/
theorem not_all_gt (c : ℚ) (r : List ℚ) (hc : DyadicPow c)
    (hmem : ∀ x ∈ r, DyadicPow x ∧ c < x) (hne : r ≠ [])
    (hsum : DyadicPow (c + r.sum)) : False := by
  obtain ⟨m, hm⟩ := hc
  -- the exponent is at least 1
  have hm1 : 1 ≤ m := by
    obtain ⟨x0, hx0⟩ := List.exists_mem_of_ne_nil r hne
    obtain ⟨hdx0, hcx0⟩ := hmem x0 hx0
    by_contra h0
    have hm0 : m = 0 := by omega
    rw [hm0] at hm
    norm_num at hm
    rw [hm] at hcx0
    exact absurd hcx0 (not_lt.mpr hdx0.le_one)
  have h2c : (2 : ℚ) * c = ((2 : ℚ) ^ (m - 1))⁻¹ := by
    rw [hm]
    have hsplit : (2 : ℚ) ^ m = 2 * 2 ^ (m - 1) := by
      rw [← pow_succ']
      congr 1
      omega
    rw [hsplit, mul_inv, ← mul_assoc, mul_inv_cancel₀ (by norm_num), one_mul]
  have hall2c : ∀ x ∈ r, MulOf (2 * c) x := by
    intro x hx
    obtain ⟨hdx, hcx⟩ := hmem x hx
    obtain ⟨k, hk⟩ := hdx
    have hkm : k < m := by
      rw [hm, hk] at hcx
      exact (dyadicPow_lt_iff m k).mp hcx
    rw [h2c, hk]
    exact mulOf_of_dyadic_le ⟨m - 1, rfl⟩ ⟨k, rfl⟩
      ((dyadicPow_le_iff (m - 1) k).mpr (by omega))
  obtain ⟨K, hK⟩ := sum_mulOf r hall2c
  have hc0 : (0 : ℚ) < c := by rw [hm]; positivity
  have hsumpos : 0 < r.sum :=
    list_sum_pos_of_mem (fun x hx => lt_trans hc0 (hmem x hx).2) hne
  have hK1 : 1 ≤ K := by
    by_contra hc'
    have : K = 0 := by omega
    rw [this] at hK
    norm_num at hK
    linarith
  obtain ⟨t, ht⟩ := hsum
  have heq : c * (1 + 2 * (K : ℚ)) = ((2 : ℚ) ^ t)⁻¹ := by
    rw [← ht, hK]
    ring
  have htm : t < m := by
    by_contra hc'
    push_neg at hc'
    have hle : ((2 : ℚ) ^ t)⁻¹ ≤ ((2 : ℚ) ^ m)⁻¹ := (dyadicPow_le_iff t m).mpr hc'
    rw [← heq, hm] at hle
    have hK' : (1 : ℚ) ≤ (K : ℚ) := by exact_mod_cast hK1
    have hcpos : (0 : ℚ) < ((2 : ℚ) ^ m)⁻¹ := by positivity
    nlinarith
  have hql : ((1 : ℚ) + 2 * (K : ℚ)) = 2 ^ (m - t) := by
    have h1 : ((2 : ℚ) ^ m)⁻¹ * (1 + 2 * (K : ℚ)) = ((2 : ℚ) ^ t)⁻¹ := by
      rw [← hm]
      exact heq
    have h2 : ((1 : ℚ) + 2 * (K : ℚ)) = 2 ^ m * ((2 : ℚ) ^ t)⁻¹ := by
      rw [← h1, ← mul_assoc, mul_inv_cancel₀ (by positivity), one_mul]
    have h3 : (2 : ℚ) ^ m = 2 ^ (m - t) * 2 ^ t := by
      rw [← pow_add]
      congr 1
      omega
    rw [h2, h3, mul_assoc, mul_inv_cancel₀ (by positivity), mul_one]
  have hnat : 1 + 2 * K = 2 ^ (m - t) := by
    have : ((1 + 2 * K : ℕ) : ℚ) = ((2 ^ (m - t) : ℕ) : ℚ) := by
      push_cast
      linarith [hql]
    exact_mod_cast this
  have heven : 2 ∣ 2 ^ (m - t) := dvd_pow_self 2 (by omega)
  omega

end GoMerkleTree

namespace GoMerkleTree

theorem MulOf.trans {a b c : ℚ} (h1 : MulOf a b) (h2 : MulOf b c) : MulOf a c := by
  obtain ⟨n, rfl⟩ := h1
  obtain ⟨m, rfl⟩ := h2
  exact ⟨m * n, by push_cast; ring⟩

theorem dyadic_lt_imp_two_mul_le {c T : ℚ} (hc : DyadicPow c) (hT : DyadicPow T)
    (h : c < T) : 2 * c ≤ T := by
  obtain ⟨m, rfl⟩ := hc
  obtain ⟨t, rfl⟩ := hT
  have htm : t < m := (dyadicPow_lt_iff m t).mp h
  have hsplit : (2 : ℚ) * ((2 : ℚ) ^ m)⁻¹ = ((2 : ℚ) ^ (m - 1))⁻¹ := by
    have hsplit2 : (2 : ℚ) ^ m = 2 * 2 ^ (m - 1) := by
      rw [← pow_succ']
      congr 1
      omega
    rw [hsplit2, mul_inv, ← mul_assoc, mul_inv_cancel₀ (by norm_num), one_mul]
  rw [hsplit]
  exact (dyadicPow_le_iff (m - 1) t).mpr (by omega)

theorem dyadicPow_double {c T : ℚ} (hc : DyadicPow c) (hT : DyadicPow T)
    (h2 : 2 * c ≤ T) : DyadicPow (2 * c) := by
  obtain ⟨m, rfl⟩ := hc
  have hm1 : 1 ≤ m := by
    by_contra h0
    have hm0 : m = 0 := by omega
    subst hm0
    norm_num at h2
    exact absurd (le_trans h2 hT.le_one) (by norm_num)
  refine ⟨m - 1, ?_⟩
  have hsplit2 : (2 : ℚ) ^ m = 2 * 2 ^ (m - 1) := by
    rw [← pow_succ']
    congr 1
    omega
  rw [hsplit2, mul_inv, ← mul_assoc, mul_inv_cancel₀ (by norm_num), one_mul]

/-- In a sorted run of dyadic weights whose total, together with an
accumulated dyadic power `c`, is again a dyadic power, the first weight
cannot exceed `c`: this is exactly why the
`current.Weight() < entries[i].Weight()` error branch of `newTree` is
unreachable. -/
theorem head_weight_le (c : ℚ) (e : Entry) (rest : List Entry)
    (hc : DyadicPow c)
    (hall : ∀ x ∈ e :: rest, DyadicPow x.weight)
    (hmono : List.Sorted (fun a b : Entry => a.weight ≤ b.weight) (e :: rest))
    (hsum : DyadicPow (c + (((e :: rest).map (fun x => x.weight)).sum))) :
    e.weight ≤ c := by
  by_contra hgt
  push_neg at hgt
  refine not_all_gt c ((e :: rest).map (fun x => x.weight)) hc ?_ (by simp) hsum
  intro x hx
  obtain ⟨en, hen, rfl⟩ := List.mem_map.mp hx
  refine ⟨hall en hen, ?_⟩
  rcases List.mem_cons.mp hen with rfl | hen'
  · exact hgt
  · have he := (List.sorted_cons.mp hmono).1 en hen'
    exact lt_of_lt_of_le hgt he

/-- The two lowest-weight entries of a sorted, dyadic, dyadic-power-sum
list have equal weight (the invariant the initial pairing of `newTree`
relies on). -/
theorem first_two_eq (e0 e1 : Entry) (rest : List Entry)
    (hall : ∀ x ∈ e0 :: e1 :: rest, DyadicPow x.weight)
    (hmono : List.Sorted (fun a b : Entry => a.weight ≤ b.weight)
      (e0 :: e1 :: rest))
    (hsum : DyadicPow (((e0 :: e1 :: rest).map (fun x => x.weight)).sum)) :
    e0.weight = e1.weight := by
  have h01 : e0.weight ≤ e1.weight :=
    (List.sorted_cons.mp hmono).1 e1 (by simp)
  refine le_antisymm h01 ?_
  refine head_weight_le e0.weight e1 rest (hall e0 (by simp))
    (fun x hx => hall x (List.mem_cons_of_mem e0 hx))
    (List.sorted_cons.mp hmono).2 ?_
  have : ((e0 :: e1 :: rest).map (fun x => x.weight)).sum =
      e0.weight + (((e1 :: rest).map (fun x => x.weight)).sum) := by
    simp
  rw [this] at hsum
  exact hsum

theorem scanGo_sum (c : ℚ) :
    ∀ (l : List Entry) (acc : ℚ) (p q : List Entry),
      scanGo c acc l = some (p, q) →
      acc + ((p.map (fun x => x.weight)).sum) = c := by
  intro l
  induction l with
  | nil => intro acc p q h; simp [scanGo] at h
  | cons e rest ih =>
    intro acc p q h
    rw [scanGo] at h
    by_cases hc : acc + e.weight = c
    · rw [if_pos hc] at h
      cases h
      simpa using hc
    · rw [if_neg hc] at h
      cases hq : scanGo c (acc + e.weight) rest with
      | none => rw [hq] at h; cases h
      | some pq =>
        rw [hq] at h
        cases h
        have := ih (acc + e.weight) pq.1 pq.2 (by rw [hq])
        simp only [List.map_cons, List.sum_cons]
        linarith

end GoMerkleTree

namespace GoMerkleTree

theorem sorted_suffix {p q : List Entry}
    (h : List.Sorted (fun a b : Entry => a.weight ≤ b.weight) (p ++ q)) :
    List.Sorted (fun a b : Entry => a.weight ≤ b.weight) q :=
  List.Pairwise.sublist (List.sublist_append_right p q) h

/-- The sibling scan of `newTree` always breaks on an exact match under
the dyadic invariants: starting below `c` with a sorted dyadic run
whose total is a multiple of `c`, at least `c`, and whose first element
is strictly below `c`, the running sum hits `c` exactly.  This is the
reason the out-of-range slice panic after the scan is unreachable. -/
theorem scanGo_isSome (c : ℚ) :
    ∀ (rest p : List Entry),
      (∀ x ∈ p ++ rest, DyadicPow x.weight) →
      List.Sorted (fun a b : Entry => a.weight ≤ b.weight) (p ++ rest) →
      DyadicPow c →
      MulOf c (((p ++ rest).map (fun x => x.weight)).sum) →
      ((p.map (fun x => x.weight)).sum < c) →
      (c ≤ ((p ++ rest).map (fun x => x.weight)).sum) →
      (∀ h0 tl0, p ++ rest = h0 :: tl0 → h0.weight < c) →
      (scanGo c ((p.map (fun x => x.weight)).sum) rest).isSome := by
  intro rest
  induction rest with
  | nil =>
    intro p hall hmono hc hmul hplt hcle hhead
    exfalso
    simp only [List.append_nil] at hcle
    linarith
  | cons w rest2 ih =>
    intro p hall hmono hc hmul hplt hcle hhead
    have hsplit : (((p ++ w :: rest2).map (fun x => x.weight)).sum) =
        ((p.map (fun x => x.weight)).sum) +
        (((w :: rest2).map (fun x => x.weight)).sum) := by
      simp
    have hwmem : w ∈ p ++ w :: rest2 := by simp
    have hwdy : DyadicPow w.weight := hall w hwmem
    have hrestmono := sorted_suffix (p := p) (q := w :: rest2) hmono
    have hrest_ge : ∀ x ∈ w :: rest2, w.weight ≤ x.weight := by
      intro x hx
      rcases List.mem_cons.mp hx with rfl | hx'
      · exact le_refl _
      · exact (List.sorted_cons.mp hrestmono).1 x hx'
    have hsum_rest_nonneg : 0 ≤ (((w :: rest2).map (fun x => x.weight)).sum) :=
      list_sum_nonneg_of_mem (fun x hx => by
        obtain ⟨en, hen, rfl⟩ := List.mem_map.mp hx
        exact (hall en (List.mem_append_right p hen)).pos.le)
    have hsum_p_nonneg : 0 ≤ ((p.map (fun x => x.weight)).sum) :=
      list_sum_nonneg_of_mem (fun x hx => by
        obtain ⟨en, hen, rfl⟩ := List.mem_map.mp hx
        exact (hall en (by simp [hen])).pos.le)
    -- the head of the remaining run never exceeds c
    have hwle : w.weight ≤ c := by
      by_contra hgt
      push_neg at hgt
      have hrmul : ∀ x ∈ ((w :: rest2).map (fun y => y.weight)), MulOf c x := by
        intro x hx
        obtain ⟨en, hen, rfl⟩ := List.mem_map.mp hx
        have hcw : c ≤ en.weight := le_trans hgt.le (hrest_ge en hen)
        exact mulOf_of_dyadic_le hc
          (hall en (List.mem_append_right p hen)) hcw
      have hsum_mul : MulOf c (((w :: rest2).map (fun x => x.weight)).sum) :=
        sum_mulOf _ hrmul
      have hsp_mul : MulOf c ((p.map (fun x => x.weight)).sum) := by
        have hsub := MulOf.sub hc.pos (hmul) hsum_mul (by rw [hsplit]; linarith)
        rw [hsplit] at hsub
        simpa using hsub
      have hsp0 : (p.map (fun x => x.weight)).sum = 0 := by
        by_contra hne
        have hpos : 0 < (p.map (fun x => x.weight)).sum :=
          lt_of_le_of_ne hsum_p_nonneg (Ne.symm hne)
        have := MulOf.le_of_pos hc.pos hsp_mul hpos
        linarith
      have hpnil : p = [] := by
        by_contra hpne
        have hmapne : p.map (fun x => x.weight) ≠ [] := by
          simpa using hpne
        have : 0 < (p.map (fun x => x.weight)).sum :=
          list_sum_pos_of_mem (fun x hx => by
            obtain ⟨en, hen, rfl⟩ := List.mem_map.mp hx
            exact (hall en (by simp [hen])).pos) hmapne
        linarith
      have := hhead w rest2 (by rw [hpnil]; rfl)
      linarith
    -- divisibility by the head weight
    have hwpos : 0 < w.weight := hwdy.pos
    have hwc : MulOf w.weight c := mulOf_of_dyadic_le hwdy hc hwle
    have hrest_mul : ∀ x ∈ ((w :: rest2).map (fun y => y.weight)), MulOf w.weight x := by
      intro x hx
      obtain ⟨en, hen, rfl⟩ := List.mem_map.mp hx
      exact mulOf_of_dyadic_le hwdy
        (hall en (List.mem_append_right p hen)) (hrest_ge en hen)
    have hsumrest : MulOf w.weight (((w :: rest2).map (fun x => x.weight)).sum) :=
      sum_mulOf _ hrest_mul
    have htotw : MulOf w.weight (((p ++ w :: rest2).map (fun x => x.weight)).sum) :=
      hwc.trans hmul
    have hspw : MulOf w.weight ((p.map (fun x => x.weight)).sum) := by
      have hsub := MulOf.sub hwpos htotw hsumrest (by rw [hsplit]; linarith)
      rw [hsplit] at hsub
      simpa using hsub
    have hd : MulOf w.weight (c - (p.map (fun x => x.weight)).sum) :=
      MulOf.sub hwpos hwc hspw hplt.le
    have hwd : w.weight ≤ c - (p.map (fun x => x.weight)).sum :=
      MulOf.le_of_pos hwpos hd (by linarith)
    rw [scanGo]
    by_cases hbreak : (p.map (fun x => x.weight)).sum + w.weight = c
    · rw [if_pos hbreak]
      rfl
    · rw [if_neg hbreak]
      have happ : (p ++ [w]) ++ rest2 = p ++ w :: rest2 := by simp
      have hlt' : (((p ++ [w]).map (fun x => x.weight)).sum) < c := by
        have hsum' : (((p ++ [w]).map (fun x => x.weight)).sum) =
            (p.map (fun x => x.weight)).sum + w.weight := by simp
        rw [hsum']
        rcases lt_or_eq_of_le (by linarith : (p.map (fun x => x.weight)).sum + w.weight ≤ c) with h | h
        · exact h
        · exact absurd h hbreak
      have hrec := ih (p ++ [w])
        (by rw [happ]; exact hall)
        (by rw [happ]; exact hmono)
        hc
        (by rw [happ]; exact hmul)
        hlt'
        (by rw [happ]; exact hcle)
        (by rw [happ]; exact hhead)
      have hsum' : (((p ++ [w]).map (fun x => x.weight)).sum) =
          (p.map (fun x => x.weight)).sum + w.weight := by simp
      rw [hsum'] at hrec
      cases hs2 : scanGo c ((p.map (fun x => x.weight)).sum + w.weight) rest2 with
      | none => rw [hs2] at hrec; cases hrec
      | some pq => rfl

end GoMerkleTree

namespace GoMerkleTree

theorem sorted_of_scan_front {p q : List Entry} {l : List Entry}
    (hpq : p ++ q = l)
    (h : List.Sorted (fun a b : Entry => a.weight ≤ b.weight) l) :
    List.Sorted (fun a b : Entry => a.weight ≤ b.weight) p := by
  subst hpq
  exact List.Pairwise.sublist (List.sublist_append_left p q) h

/-- The `newTree` loop never errors under the dyadic invariants: with a
dyadic-power subtree weight, a sorted dyadic remainder and a
dyadic-power grand total, it consumes everything and returns a root of
exactly the total weight. -/
theorem buildLoop_ok (n : ℕ)
    (oracle : ∀ (l : List Entry), l.length ≤ n → l ≠ [] →
      (∀ x ∈ l, DyadicPow x.weight) →
      List.Sorted (fun a b : Entry => a.weight ≤ b.weight) l →
      DyadicPow ((l.map (fun x => x.weight)).sum) →
      ∃ rt lvs, newTree l = .ok (some rt, lvs) ∧
        nodeWeight rt = (l.map (fun x => x.weight)).sum) :
    ∀ (m : ℕ) (rest : List Entry), rest.length ≤ m → rest.length ≤ n →
    ∀ (cur : Node) (lvs0 : List (Entry × List Bool)),
      DyadicPow (nodeWeight cur) →
      (∀ x ∈ rest, DyadicPow x.weight) →
      List.Sorted (fun a b : Entry => a.weight ≤ b.weight) rest →
      DyadicPow (nodeWeight cur + ((rest.map (fun x => x.weight)).sum)) →
      ∃ ro lvsf, buildLoop cur lvs0 rest = .ok (some ro, lvsf) ∧
        nodeWeight ro = nodeWeight cur + ((rest.map (fun x => x.weight)).sum) := by
  intro m
  induction m with
  | zero =>
    intro rest hm _ cur lvs0 _ _ _ _
    have hnil : rest = [] := List.length_eq_zero.mp (by omega)
    subst hnil
    exact ⟨cur, lvs0, buildLoop_nil cur lvs0, by simp⟩
  | succ m ih =>
    intro rest hm hn cur lvs0 hcur hall hmono htot
    cases rest with
    | nil => exact ⟨cur, lvs0, buildLoop_nil cur lvs0, by simp⟩
    | cons e rest' =>
      have hewle : e.weight ≤ nodeWeight cur :=
        head_weight_le (nodeWeight cur) e rest' hcur hall hmono htot
      have h1 : ¬ nodeWeight cur < e.weight := not_lt.mpr hewle
      by_cases h2 : nodeWeight cur = e.weight
      · -- equal-weight merge
        rw [buildLoop_eqw cur lvs0 e rest' h1 h2]
        have hsplit : ((e :: rest').map (fun x => x.weight)).sum =
            e.weight + ((rest'.map (fun x => x.weight)).sum) := by simp
        have hsum_rest'_nonneg : 0 ≤ ((rest'.map (fun x => x.weight)).sum) :=
          list_sum_nonneg_of_mem (fun x hx => by
            obtain ⟨en, hen, rfl⟩ := List.mem_map.mp hx
            exact (hall en (by simp [hen])).pos.le)
        have hT : DyadicPow (2 * nodeWeight cur +
            ((rest'.map (fun x => x.weight)).sum)) := by
          have : nodeWeight cur + ((e :: rest').map (fun x => x.weight)).sum =
              2 * nodeWeight cur + ((rest'.map (fun x => x.weight)).sum) := by
            rw [hsplit, ← h2]
            ring
          rw [← this]
          exact htot
        have h2c : DyadicPow (2 * nodeWeight cur) := by
          refine dyadicPow_double hcur hT ?_
          linarith
        have hw2 : nodeWeight (.branch cur (.leaf e)) = 2 * nodeWeight cur := by
          simp only [nodeWeight]
          rw [← h2]
          ring
        obtain ⟨ro, lvsf, hloop, hwro⟩ :=
          ih rest' (by simp at hm; omega) (by simp at hn; omega)
            (.branch cur (.leaf e)) (prependPath false lvs0 ++ [(e, [true])])
            (by rw [hw2]; exact h2c)
            (fun x hx => hall x (by simp [hx]))
            (List.sorted_cons.mp hmono).2
            (by rw [hw2]; exact hT)
        refine ⟨ro, lvsf, hloop, ?_⟩
        rw [hwro, hw2, hsplit, ← h2]
        ring
      · -- strictly smaller head: sibling subtree via the scan
        have hewlt : e.weight < nodeWeight cur := lt_of_le_of_ne hewle (fun hc => h2 hc.symm)
        have hsum_rest_nonneg : 0 ≤ (((e :: rest').map (fun x => x.weight)).sum) :=
          list_sum_nonneg_of_mem (fun x hx => by
            obtain ⟨en, hen, rfl⟩ := List.mem_map.mp hx
            exact (hall en hen).pos.le)
        have hsum_pos : 0 < (((e :: rest').map (fun x => x.weight)).sum) :=
          list_sum_pos_of_mem (fun x hx => by
            obtain ⟨en, hen, rfl⟩ := List.mem_map.mp hx
            exact (hall en hen).pos) (by simp)
        have hclt : nodeWeight cur <
            nodeWeight cur + (((e :: rest').map (fun x => x.weight)).sum) := by
          linarith
        have hc2le : 2 * nodeWeight cur ≤
            nodeWeight cur + (((e :: rest').map (fun x => x.weight)).sum) :=
          dyadic_lt_imp_two_mul_le hcur htot hclt
        have hcle : nodeWeight cur ≤ (((e :: rest').map (fun x => x.weight)).sum) := by
          linarith
        have hmul : MulOf (nodeWeight cur)
            (((e :: rest').map (fun x => x.weight)).sum) := by
          have htot_mul : MulOf (nodeWeight cur)
              (nodeWeight cur + (((e :: rest').map (fun x => x.weight)).sum)) :=
            mulOf_of_dyadic_le hcur htot (by linarith)
          have := MulOf.sub hcur.pos htot_mul (MulOf.self (nodeWeight cur))
            (by linarith)
          simpa using this
        have hscan := scanGo_isSome (nodeWeight cur) (e :: rest') []
          (by simpa using hall)
          (by simpa using hmono)
          hcur
          (by simpa using hmul)
          (by simpa using hcur.pos)
          (by simpa using hcle)
          (by
            intro h0 tl0 heq
            rw [List.nil_append] at heq
            injection heq with hh _
            rw [← hh]
            exact hewlt)
        simp only [List.map_nil, List.sum_nil] at hscan
        obtain ⟨⟨p, q⟩, hs⟩ := Option.isSome_iff_exists.mp hscan
        rw [buildLoop_scan cur lvs0 e rest' p q h1 h2 hs]
        have hpq := scanGo_append _ _ _ _ _ hs
        have hpn := scanGo_fst_ne_nil _ _ _ _ _ hs
        have hpsum : ((p.map (fun x => x.weight)).sum) = nodeWeight cur := by
          have := scanGo_sum _ _ _ _ _ hs
          linarith
        obtain ⟨rt, lvs', hnp, hwrt⟩ := oracle p
          (by
            have := scanGo_length_le _ _ _ _ _ hs
            simp at hn this
            omega)
          hpn
          (fun x hx => hall x (by rw [← hpq]; exact List.mem_append_left q hx))
          (sorted_of_scan_front hpq hmono)
          (by rw [hpsum]; exact hcur)
        rw [hnp]
        have hwbr : nodeWeight (.branch cur rt) = 2 * nodeWeight cur := by
          simp only [nodeWeight]
          rw [hwrt, hpsum]
          ring
        have hsum_split : (((e :: rest').map (fun x => x.weight)).sum) =
            nodeWeight cur + ((q.map (fun x => x.weight)).sum) := by
          rw [← hpq]
          simp [hpsum]
        have hT : DyadicPow (2 * nodeWeight cur +
            ((q.map (fun x => x.weight)).sum)) := by
          have heq2 : nodeWeight cur + (((e :: rest').map (fun x => x.weight)).sum) =
              2 * nodeWeight cur + ((q.map (fun x => x.weight)).sum) := by
            rw [hsum_split]
            ring
          rw [← heq2]
          exact htot
        have hqsum_nonneg : 0 ≤ ((q.map (fun x => x.weight)).sum) :=
          list_sum_nonneg_of_mem (fun x hx => by
            obtain ⟨en, hen, rfl⟩ := List.mem_map.mp hx
            have : en ∈ e :: rest' := by rw [← hpq]; exact List.mem_append_right p hen
            exact (hall en this).pos.le)
        have h2c : DyadicPow (2 * nodeWeight cur) := by
          refine dyadicPow_double hcur hT (by linarith)
        obtain ⟨ro, lvsf, hloop, hwro⟩ :=
          ih q
            (by
              have := scanGo_snd_length_lt _ _ _ _ _ hs
              simp at hm this
              omega)
            (by
              have := scanGo_snd_length_lt _ _ _ _ _ hs
              simp at hn this
              omega)
            (.branch cur rt) (prependPath false lvs0 ++ prependPath true lvs')
            (by rw [hwbr]; exact h2c)
            (fun x hx => by
              have : x ∈ e :: rest' := by rw [← hpq]; exact List.mem_append_right p hx
              exact hall x this)
            (sorted_suffix (p := p) (q := q) (by rw [hpq]; exact hmono))
            (by rw [hwbr]; exact hT)
        refine ⟨ro, lvsf, hloop, ?_⟩
        rw [hwro, hwbr, hsum_split]
        ring

end GoMerkleTree

namespace GoMerkleTree

/-- `newTree` succeeds on every nonempty, ascending, dyadic entry list
whose weight sum is a dyadic power, returning a root of exactly that
weight. -/
theorem newTree_ok :
    ∀ (n : ℕ) (l : List Entry), l.length ≤ n → l ≠ [] →
      (∀ x ∈ l, DyadicPow x.weight) →
      List.Sorted (fun a b : Entry => a.weight ≤ b.weight) l →
      DyadicPow ((l.map (fun x => x.weight)).sum) →
      ∃ rt lvs, newTree l = .ok (some rt, lvs) ∧
        nodeWeight rt = (l.map (fun x => x.weight)).sum := by
  intro n
  induction n using Nat.strong_induction_on with
  | _ n ihn =>
    intro l hl hne hall hmono hsum
    match l with
    | [] => exact absurd rfl hne
    | [e] =>
      exact ⟨.leaf e, [(e, [])], newTree_single e, by simp [nodeWeight]⟩
    | e0 :: e1 :: rest =>
      have heq : e0.weight = e1.weight := first_two_eq e0 e1 rest hall hmono hsum
      rw [newTree_cons₂ e0 e1 rest heq]
      have hln : rest.length + 2 ≤ n := by simpa using hl
      have oracle : ∀ (l' : List Entry), l'.length ≤ rest.length + 1 → l' ≠ [] →
          (∀ x ∈ l', DyadicPow x.weight) →
          List.Sorted (fun a b : Entry => a.weight ≤ b.weight) l' →
          DyadicPow ((l'.map (fun x => x.weight)).sum) →
          ∃ rt lvs, newTree l' = .ok (some rt, lvs) ∧
            nodeWeight rt = (l'.map (fun x => x.weight)).sum :=
        fun l' hlen' => ihn (rest.length + 1) (by omega) l' hlen'
      have hw0 : nodeWeight (.branch (.leaf e0) (.leaf e1)) =
          e0.weight + e1.weight := rfl
      have hsplit : (((e0 :: e1 :: rest).map (fun x => x.weight)).sum) =
          (e0.weight + e1.weight) + ((rest.map (fun x => x.weight)).sum) := by
        simp
        ring
      have hrest_nonneg : 0 ≤ ((rest.map (fun x => x.weight)).sum) :=
        list_sum_nonneg_of_mem (fun x hx => by
          obtain ⟨en, hen, rfl⟩ := List.mem_map.mp hx
          exact (hall en (by simp [hen])).pos.le)
      have hT : DyadicPow ((e0.weight + e1.weight) +
          ((rest.map (fun x => x.weight)).sum)) := by
        rw [← hsplit]
        exact hsum
      have h2c : DyadicPow (e0.weight + e1.weight) := by
        have h2e : e0.weight + e1.weight = 2 * e0.weight := by rw [← heq]; ring
        rw [h2e]
        refine dyadicPow_double (hall e0 (by simp)) (by rw [h2e] at hT; exact hT) ?_
        rw [h2e] at hT
        have := hT
        linarith
      obtain ⟨ro, lvsf, hloop, hwro⟩ :=
        buildLoop_ok (rest.length + 1) oracle rest.length rest le_rfl (by omega)
          (.branch (.leaf e0) (.leaf e1)) [(e0, [false]), (e1, [true])]
          (by rw [hw0]; exact h2c)
          (fun x hx => hall x (by simp [hx]))
          ((List.sorted_cons.mp (List.sorted_cons.mp hmono).2).2)
          (by rw [hw0]; exact hT)
      exact ⟨ro, lvsf, hloop, by rw [hwro, hw0, hsplit]⟩

/-- C8.  For every entry list that passed validation (all weights in
the valid set), was padded to total weight exactly `1`, and is sorted
ascending by weight, `newTree` succeeds: neither `invalid entries`
error branch is taken, and the inner sibling scan always finds a run
summing exactly to the current subtree weight, so the recursive slice
index stays in bounds (no `scanOutOfRange`, no `internalNil`). -/
theorem builder_invariants_unreachable (l : List Entry)
    (hval : ∀ e ∈ l, e.weight ∈ validWeights)
    (hsum : (l.map (fun e => e.weight)).sum = 1)
    (hsorted : List.Sorted (fun a b : Entry => a.weight ≤ b.weight) l) :
    ∃ rt lvs, newTree l = .ok (some rt, lvs) := by
  have hne : l ≠ [] := by
    intro hc
    rw [hc] at hsum
    norm_num at hsum
  obtain ⟨rt, lvs, hok, _⟩ :=
    newTree_ok l.length l le_rfl hne
      (fun x hx => validWeights_dyadic x.weight (hval x hx))
      hsorted
      (by rw [hsum]; exact ⟨0, by norm_num⟩)
  exact ⟨rt, lvs, hok⟩

/-- Witness for C8 at the sorted padded list of the README example. -/
theorem builder_invariants_unreachable_witness :
    ∃ rt lvs,
      newTree [⟨2, [3, 4], 1/4⟩, ⟨3, [], 1/4⟩, ⟨1, [1, 2], 1/2⟩] =
        .ok (some rt, lvs) :=
  builder_invariants_unreachable [⟨2, [3, 4], 1/4⟩, ⟨3, [], 1/4⟩, ⟨1, [1, 2], 1/2⟩]
    (by
      intro e he
      simp only [List.mem_cons, List.not_mem_nil, or_false] at he
      rcases he with rfl | rfl | rfl <;> norm_num [validWeights])
    (by norm_num)
    (by
      refine List.sorted_cons.mpr ⟨?_, List.sorted_cons.mpr ⟨?_, ?_⟩⟩
      · intro b hb
        simp only [List.mem_cons, List.not_mem_nil, or_false] at hb
        rcases hb with rfl | rfl <;> norm_num
      · intro b hb
        simp only [List.mem_cons, List.not_mem_nil, or_false] at hb
        rcases hb with rfl <;> norm_num
      · simp)

end GoMerkleTree

namespace GoMerkleTree

theorem validWeights_sorted :
    List.Pairwise (fun a b : ℚ => b < a) validWeights := by
  norm_num [validWeights]

theorem two_mul_mem_validWeights {w : ℚ} (hw : w ∈ validWeights) (hne : w ≠ 1) :
    2 * w ∈ validWeights := by
  simp only [validWeights, List.mem_cons, List.not_mem_nil, or_false] at hw ⊢
  rcases hw with rfl | rfl | rfl | rfl | rfl | rfl | rfl | rfl | rfl | rfl | rfl
  · exact absurd rfl hne
  all_goals norm_num

/-- When the greedy pick is not the full weight `1`, the deficit is
strictly below twice the pick (else the larger weight would have been
chosen first). -/
theorem pad_pick_bound {missing w : ℚ}
    (hf : validWeights.find? (fun x => x ≤ missing) = some w)
    (hne : w ≠ 1) : missing < 2 * w := by
  have hf' := hf
  rw [List.find?_eq_some] at hf'
  obtain ⟨hpw, as, bs, hsplit, has⟩ := hf'
  have hwmem : w ∈ validWeights := List.mem_of_find?_eq_some hf
  have hwpos : 0 < w := (validWeights_dyadic w hwmem).pos
  have h2w : 2 * w ∈ validWeights := two_mul_mem_validWeights hwmem hne
  have h2w_as : 2 * w ∈ as := by
    rw [hsplit] at h2w
    rcases List.mem_append.mp h2w with h | h
    · exact h
    · exfalso
      have hsorted := validWeights_sorted
      rw [hsplit] at hsorted
      have htail := (List.pairwise_append.mp hsorted).2.1
      rcases List.mem_cons.mp h with heq | hbs
      · nlinarith
      · have := (List.pairwise_cons.mp htail).1 (2 * w) hbs
        nlinarith
  have := has (2 * w) h2w_as
  simp only [Bool.not_eq_eq_eq_not, Bool.not_true, decide_eq_false_iff_not,
    not_le] at this
  exact this

/-- Master specification of the padding loop: on a deficit that is a
nonnegative multiple of `1/1024` and strictly below `2^(1-i)`, it
appends at most `11 - i` synthetic entries, all empty-valued with
valid weights and fresh strictly increasing ids, whose weights sum
exactly to the deficit. -/
theorem padLoop_spec : ∀ (k : ℕ) (missing : ℚ) (nid : ℕ)
    (entries : List Entry) (i : ℕ),
    (⌈missing * 1024⌉).toNat ≤ k →
    MulOf (((2 : ℚ) ^ 10)⁻¹) missing →
    missing < 2 * ((2 : ℚ) ^ i)⁻¹ →
    i ≤ 11 →
    ∃ pads, padLoop missing nid entries = entries ++ pads ∧
      pads.length + i ≤ 11 ∧
      (∀ e ∈ pads, e.weight ∈ validWeights ∧ e.value = [] ∧ nid ≤ e.id) ∧
      List.Pairwise (fun a b : Entry => a.id < b.id) pads ∧
      ((pads.map (fun e => e.weight)).sum = missing) := by
  intro k
  induction k with
  | zero =>
    intro missing nid entries i hk hmul hlt hi
    by_cases h : 0 < missing
    · exfalso
      have h1024 : ((2 : ℚ) ^ 10)⁻¹ ≤ missing :=
        MulOf.le_of_pos (by positivity) hmul h
      have hge : (1 : ℚ) ≤ missing * 1024 := by
        rw [show ((2:ℚ)^10)⁻¹ = 1/1024 by norm_num] at h1024
        linarith
      have hcge : (1 : ℤ) ≤ ⌈missing * 1024⌉ := by
        have h2 : ⌈(1 : ℚ)⌉ ≤ ⌈missing * 1024⌉ := Int.ceil_le_ceil hge
        simpa using h2
      omega
    · have h0 : missing = 0 := by
        obtain ⟨nn, hnn⟩ := hmul
        push_neg at h
        rcases Nat.eq_zero_or_pos nn with rfl | hpos
        · rw [hnn]; norm_num
        · exfalso
          have hq : (0 : ℚ) < (nn : ℚ) * ((2 : ℚ) ^ 10)⁻¹ := by
            have : (0:ℚ) < (nn : ℚ) := by exact_mod_cast hpos
            positivity
          rw [← hnn] at hq
          linarith
      refine ⟨[], ?_, by simpa using hi, by simp, by simp, by simp [h0]⟩
      rw [padLoop_nonpos _ _ _ h, List.append_nil]
  | succ k ih =>
    intro missing nid entries i hk hmul hlt hi
    by_cases h : 0 < missing
    · have h1024 : ((2 : ℚ) ^ 10)⁻¹ ≤ missing :=
        MulOf.le_of_pos (by positivity) hmul h
      have hfsome : (validWeights.find? (fun x => x ≤ missing)).isSome := by
        rw [List.find?_isSome]
        refine ⟨1/1024, by norm_num [validWeights], ?_⟩
        simp only [decide_eq_true_eq]
        rw [show ((2:ℚ)^10)⁻¹ = 1/1024 by norm_num] at h1024
        exact h1024
      obtain ⟨w, hf⟩ := Option.isSome_iff_exists.mp hfsome
      have hwmem : w ∈ validWeights := List.mem_of_find?_eq_some hf
      have hwle : w ≤ missing := by simpa using List.find?_some hf
      obtain ⟨j, hj⟩ := validWeights_dyadic w hwmem
      have hw1024 : (1:ℚ)/1024 ≤ w := by
        simp only [validWeights, List.mem_cons, List.not_mem_nil, or_false] at hwmem
        rcases hwmem with rfl|rfl|rfl|rfl|rfl|rfl|rfl|rfl|rfl|rfl|rfl <;> norm_num
      have hj10 : j ≤ 10 := by
        by_contra hc
        push_neg at hc
        have hle11 : ((2:ℚ)^j)⁻¹ ≤ ((2:ℚ)^11)⁻¹ := (dyadicPow_le_iff j 11).mpr hc
        rw [← hj] at hle11
        norm_num at hle11
        linarith
      have hdec := pad_measure_lt hwmem hwle
      have hw10 : ((2 : ℚ) ^ 10)⁻¹ ≤ w := by
        rw [hj]
        exact (dyadicPow_le_iff 10 j).mpr hj10
      have hmul' : MulOf (((2 : ℚ) ^ 10)⁻¹) (missing - w) :=
        MulOf.sub (by positivity) hmul
          (mulOf_of_dyadic_le ⟨10, rfl⟩ ⟨j, hj⟩ hw10) hwle
      by_cases hne : w = 1
      · -- the full weight is picked: the deficit was exactly in [1, 2)
        subst hne
        have hi0 : i = 0 := by
          by_contra hc
          have hi1 : 1 ≤ i := by omega
          have hhalf : ((2:ℚ)^i)⁻¹ ≤ ((2:ℚ)^1)⁻¹ := (dyadicPow_le_iff i 1).mpr hi1
          norm_num at hhalf
          linarith
        subst hi0
        have hlt1 : missing - 1 < 2 * ((2:ℚ)^1)⁻¹ := by
          norm_num at hlt ⊢
          linarith
        obtain ⟨pads', hp', hlen', hprops', hpair', hsum'⟩ :=
          ih (missing - 1) (nid + 1) (entries ++ [padEntry nid 1]) 1
            (by omega) hmul' hlt1 (by omega)
        refine ⟨padEntry nid 1 :: pads', ?_, by simp at hlen' ⊢; omega, ?_, ?_, ?_⟩
        · rw [padLoop_found _ _ _ 1 h hf, hp', List.append_assoc]
          rfl
        · intro e he
          rcases List.mem_cons.mp he with rfl | he'
          · exact ⟨by norm_num [validWeights, padEntry], rfl, le_refl _⟩
          · obtain ⟨hw', hv', hid'⟩ := hprops' e he'
            exact ⟨hw', hv', by omega⟩
        · refine List.pairwise_cons.mpr ⟨?_, hpair'⟩
          intro e he
          have := (hprops' e he).2.2
          simp only [padEntry]
          omega
        · simp only [List.map_cons, List.sum_cons, hsum', padEntry]
          ring
      · -- a proper fraction is picked: the deficit halves in scale
        have hbound := pad_pick_bound hf hne
        have hj1 : 1 ≤ j := by
          by_contra hc
          have hj0 : j = 0 := by omega
          rw [hj0] at hj
          norm_num at hj
          exact hne hj
        have hw_eq : (2:ℚ) * ((2:ℚ)^(j+1))⁻¹ = w := by
          rw [hj]
          have hsplit2 : (2 : ℚ) ^ (j + 1) = 2 * 2 ^ j := by
            rw [← pow_succ']
          rw [hsplit2, mul_inv, ← mul_assoc, mul_inv_cancel₀ (by norm_num), one_mul]
        have hlt' : missing - w < 2 * ((2:ℚ)^(j+1))⁻¹ := by
          rw [hw_eq]
          linarith
        have hij : i ≤ j := by
          have hkey : ((2:ℚ)^(j+1))⁻¹ < ((2:ℚ)^i)⁻¹ := by
            have hwm : ((2:ℚ)^j)⁻¹ < 2 * ((2:ℚ)^i)⁻¹ := by
              rw [← hj]
              exact lt_of_le_of_lt hwle hlt
            have hh : (2:ℚ) * ((2:ℚ)^(j+1))⁻¹ = ((2:ℚ)^j)⁻¹ := by
              have hsplit2 : (2 : ℚ) ^ (j + 1) = 2 * 2 ^ j := by
                rw [← pow_succ']
              rw [hsplit2, mul_inv, ← mul_assoc, mul_inv_cancel₀ (by norm_num), one_mul]
            nlinarith [hh, hwm]
          have := (dyadicPow_lt_iff (j+1) i).mp hkey
          omega
        obtain ⟨pads', hp', hlen', hprops', hpair', hsum'⟩ :=
          ih (missing - w) (nid + 1) (entries ++ [padEntry nid w]) (j + 1)
            (by omega) hmul' hlt' (by omega)
        refine ⟨padEntry nid w :: pads', ?_, by simp at hlen' ⊢; omega, ?_, ?_, ?_⟩
        · rw [padLoop_found _ _ _ w h hf, hp', List.append_assoc]
          rfl
        · intro e he
          rcases List.mem_cons.mp he with rfl | he'
          · exact ⟨by simpa [padEntry] using hwmem, rfl, le_refl _⟩
          · obtain ⟨hw', hv', hid'⟩ := hprops' e he'
            exact ⟨hw', hv', by omega⟩
        · refine List.pairwise_cons.mpr ⟨?_, hpair'⟩
          intro e he
          have := (hprops' e he).2.2
          simp only [padEntry]
          omega
        · simp only [List.map_cons, List.sum_cons, hsum', padEntry]
          ring
    · have h0 : missing = 0 := by
        obtain ⟨nn, hnn⟩ := hmul
        push_neg at h
        rcases Nat.eq_zero_or_pos nn with rfl | hpos
        · rw [hnn]; norm_num
        · exfalso
          have hq : (0 : ℚ) < (nn : ℚ) * ((2 : ℚ) ^ 10)⁻¹ := by
            have : (0:ℚ) < (nn : ℚ) := by exact_mod_cast hpos
            positivity
          rw [← hnn] at hq
          linarith
      refine ⟨[], ?_, by simpa using hi, by simp, by simp, by simp [h0]⟩
      rw [padLoop_nonpos _ _ _ h, List.append_nil]

end GoMerkleTree

namespace GoMerkleTree

theorem validWeight_iff (w : ℚ) : validWeight w = true ↔ w ∈ validWeights := by
  simp [validWeight]

theorem validWeights_ge (w : ℚ) (hw : w ∈ validWeights) :
    ((2 : ℚ) ^ 10)⁻¹ ≤ w := by
  simp only [validWeights, List.mem_cons, List.not_mem_nil, or_false] at hw
  rcases hw with rfl|rfl|rfl|rfl|rfl|rfl|rfl|rfl|rfl|rfl|rfl <;> norm_num

/-- C6.  Padding terminates and completes the weight: on any validated
entry list with weight sum `s ≤ 1`, the greedy loop appends at most 10
synthetic empty-valued entries (one per iteration) and afterwards the
total weight is exactly `1`.  (Termination itself is part of the
well-founded definition of `padLoop`.) -/
theorem padding_bounded (entries : List Entry) (nid : ℕ)
    (hval : ∀ e ∈ entries, e.weight ∈ validWeights)
    (hsum : (entries.map (fun e => e.weight)).sum ≤ 1) :
    ∃ pads,
      padLoop (1 - (entries.map (fun e => e.weight)).sum) nid entries =
        entries ++ pads ∧
      pads.length ≤ 10 ∧
      (((entries ++ pads).map (fun e => e.weight)).sum = 1) ∧
      (∀ e ∈ pads, e.weight ∈ validWeights ∧ e.value = [] ∧ nid ≤ e.id) ∧
      List.Pairwise (fun a b : Entry => a.id < b.id) pads := by
  have hsmul : MulOf (((2 : ℚ) ^ 10)⁻¹) ((entries.map (fun e => e.weight)).sum) :=
    sum_mulOf _ (fun x hx => by
      obtain ⟨en, hen, rfl⟩ := List.mem_map.mp hx
      exact mulOf_of_dyadic_le ⟨10, rfl⟩ (validWeights_dyadic _ (hval en hen))
        (validWeights_ge _ (hval en hen)))
  have h1mul : MulOf (((2 : ℚ) ^ 10)⁻¹) 1 := ⟨1024, by norm_num⟩
  have hmmul : MulOf (((2 : ℚ) ^ 10)⁻¹)
      (1 - (entries.map (fun e => e.weight)).sum) :=
    MulOf.sub (by positivity) h1mul hsmul hsum
  have hsplit : ∀ pads : List Entry,
      (((entries ++ pads).map (fun e => e.weight)).sum) =
      ((entries.map (fun e => e.weight)).sum) +
      ((pads.map (fun e => e.weight)).sum) := by
    intro pads
    simp
  by_cases h1 : (entries.map (fun e => e.weight)).sum = 1
  · refine ⟨[], ?_, by norm_num, by rw [hsplit]; simp [h1], by simp, by simp⟩
    rw [padLoop_nonpos _ _ _ (by rw [h1]; norm_num), List.append_nil]
  · have hslt : (entries.map (fun e => e.weight)).sum < 1 :=
      lt_of_le_of_ne hsum h1
    by_cases h0 : (entries.map (fun e => e.weight)).sum = 0
    · -- deficit 1: a single weight-1 entry completes
      rw [h0]
      have hfind : validWeights.find? (fun x => x ≤ (1 : ℚ) - 0) = some 1 := by
        norm_num [validWeights, List.find?]
      refine ⟨[padEntry nid 1], ?_, by norm_num, ?_, ?_, by simp⟩
      · rw [padLoop_found _ _ _ 1 (by norm_num) hfind]
        rw [padLoop_nonpos _ _ _ (by norm_num)]
      · rw [hsplit, h0]
        simp [padEntry]
      · intro e he
        rcases List.mem_cons.mp he with rfl | he'
        · exact ⟨by norm_num [validWeights, padEntry], rfl, le_refl _⟩
        · exact absurd he' (List.not_mem_nil e)
    · have hspos : 0 < (entries.map (fun e => e.weight)).sum := by
        have hnn : 0 ≤ (entries.map (fun e => e.weight)).sum :=
          list_sum_nonneg_of_mem (fun x hx => by
            obtain ⟨en, hen, rfl⟩ := List.mem_map.mp hx
            exact (validWeights_dyadic _ (hval en hen)).pos.le)
        exact lt_of_le_of_ne hnn (Ne.symm h0)
      have hmlt : 1 - (entries.map (fun e => e.weight)).sum <
          2 * ((2 : ℚ) ^ 1)⁻¹ := by
        norm_num
        linarith
      obtain ⟨pads, hp, hlen, hprops, hpair, hsum'⟩ :=
        padLoop_spec ((⌈(1 - (entries.map (fun e => e.weight)).sum) * 1024⌉).toNat)
          (1 - (entries.map (fun e => e.weight)).sum) nid entries 1
          le_rfl hmmul hmlt (by omega)
      refine ⟨pads, hp, by omega, ?_, hprops, hpair⟩
      rw [hsplit, hsum']
      ring

/-- Witness for C6 at the README example entries (one `0.25` pad). -/
theorem padding_bounded_witness :
    ∃ pads,
      padLoop (1 - ((exEntriesA.map (fun e => e.weight)).sum)) 3 exEntriesA =
        exEntriesA ++ pads ∧
      pads.length ≤ 10 ∧
      (((exEntriesA ++ pads).map (fun e => e.weight)).sum = 1) ∧
      (∀ e ∈ pads, e.weight ∈ validWeights ∧ e.value = [] ∧ 3 ≤ e.id) ∧
      List.Pairwise (fun a b : Entry => a.id < b.id) pads :=
  padding_bounded exEntriesA 3
    (by
      intro e he
      simp only [exEntriesA, List.mem_cons, List.not_mem_nil, or_false] at he
      rcases he with rfl | rfl <;> norm_num [validWeights])
    (by norm_num [exEntriesA])

end GoMerkleTree

namespace GoMerkleTree

instance : IsTotal Entry (fun a b : Entry => a.weight ≤ b.weight) :=
  ⟨fun a b => le_total a.weight b.weight⟩

instance : IsTrans Entry (fun a b : Entry => a.weight ≤ b.weight) :=
  ⟨fun _ _ _ h1 h2 => le_trans h1 h2⟩

/-- When validation passes, the whole pipeline succeeds: the padded
list sums to exactly `1`, sorting makes it ascending, and the builder
invariants hold. -/
theorem newMerkleTree_ok_of (entries : List Entry)
    (hval : ∀ e ∈ entries, e.weight ∈ validWeights)
    (hsum : (entries.map (fun e => e.weight)).sum ≤ 1) :
    ∃ t, newMerkleTree entries = .ok t := by
  simp only [newMerkleTree]
  rw [if_pos (List.all_eq_true.mpr (fun e he =>
    (validWeight_iff e.weight).mpr (hval e he)))]
  rw [if_neg (not_lt.mpr hsum)]
  obtain ⟨pads, hp, _, hsum1, hprops, _⟩ :=
    padding_bounded entries ((entries.map (fun e => e.id)).foldr max 0 + 1)
      hval hsum
  rw [hp]
  have hperm : List.Perm ((entries ++ pads).insertionSort
      (fun a b : Entry => a.weight ≤ b.weight)) (entries ++ pads) :=
    List.perm_insertionSort _ _
  have hsorted : List.Sorted (fun a b : Entry => a.weight ≤ b.weight)
      ((entries ++ pads).insertionSort (fun a b : Entry => a.weight ≤ b.weight)) :=
    List.sorted_insertionSort _ _
  have hval' : ∀ e ∈ (entries ++ pads).insertionSort
      (fun a b : Entry => a.weight ≤ b.weight), e.weight ∈ validWeights := by
    intro e he
    rw [List.mem_insertionSort] at he
    rcases List.mem_append.mp he with h | h
    · exact hval e h
    · exact (hprops e h).1
  have hsum' : (((entries ++ pads).insertionSort
      (fun a b : Entry => a.weight ≤ b.weight)).map (fun e => e.weight)).sum = 1 := by
    rw [(hperm.map (fun e => e.weight)).sum_eq]
    exact hsum1
  obtain ⟨rt, lvs, hok⟩ :=
    builder_invariants_unreachable _ hval' hsum' hsorted
  rw [hok]
  exact ⟨⟨rt, lvs⟩, rfl⟩

/-- C5.  Input validation: `NewMerkleTree` fails with `ErrInvalidWeight`
exactly when some entry weight is outside the eleven-element valid set;
it fails with `ErrWeightSumOverflow` exactly when all weights are valid
but their sum exceeds `1`; otherwise it does not fail at all (and, the
result being an `Except`, a tree is returned exactly when no error
is). -/
theorem validation_characterization (entries : List Entry) :
    (newMerkleTree entries = .error .invalidWeight ↔
      ∃ e ∈ entries, e.weight ∉ validWeights) ∧
    (newMerkleTree entries = .error .weightSumOverflow ↔
      ((∀ e ∈ entries, e.weight ∈ validWeights) ∧
        1 < (entries.map (fun e => e.weight)).sum)) ∧
    ((∀ e ∈ entries, e.weight ∈ validWeights) →
      (entries.map (fun e => e.weight)).sum ≤ 1 →
      ∃ t, newMerkleTree entries = .ok t) := by
  refine ⟨?_, ?_, newMerkleTree_ok_of entries⟩
  · constructor
    · intro h
      by_contra hc
      push_neg at hc
      by_cases hs : 1 < (entries.map (fun e => e.weight)).sum
      · simp only [newMerkleTree] at h
        rw [if_pos (List.all_eq_true.mpr (fun e he =>
          (validWeight_iff e.weight).mpr (hc e he)))] at h
        rw [if_pos hs] at h
        cases h
      · obtain ⟨t, ht⟩ := newMerkleTree_ok_of entries hc (not_lt.mp hs)
        rw [ht] at h
        cases h
    · intro h
      obtain ⟨e, he, hw⟩ := h
      simp only [newMerkleTree]
      rw [if_neg]
      intro hall
      rw [List.all_eq_true] at hall
      exact hw ((validWeight_iff e.weight).mp (hall e he))
  · constructor
    · intro h
      by_cases hall : ∀ e ∈ entries, e.weight ∈ validWeights
      · refine ⟨hall, ?_⟩
        by_contra hs
        obtain ⟨t, ht⟩ := newMerkleTree_ok_of entries hall (not_lt.mp hs)
        rw [ht] at h
        cases h
      · push_neg at hall
        obtain ⟨e, he, hw⟩ := hall
        simp only [newMerkleTree] at h
        rw [if_neg (fun hc => hw ((validWeight_iff e.weight).mp
          (List.all_eq_true.mp hc e he)))] at h
        cases h
    · rintro ⟨hall, hs⟩
      simp only [newMerkleTree]
      rw [if_pos (List.all_eq_true.mpr (fun e he =>
        (validWeight_iff e.weight).mpr (hall e he)))]
      rw [if_pos hs]

/-- Witness for C5: the success arm at the README example. -/
theorem validation_characterization_witness :
    ∃ t, newMerkleTree exEntriesA = .ok t :=
  (validation_characterization exEntriesA).2.2
    (by
      intro e he
      simp only [exEntriesA, List.mem_cons, List.not_mem_nil, or_false] at he
      rcases he with rfl | rfl <;> norm_num [validWeights])
    (by norm_num [exEntriesA])

end GoMerkleTree

namespace GoMerkleTree

/-- The concrete-scenario entries `[(v1,0.5), (v2,0.25), (v3,0.125)]`. -/
def entries9 (v1 v2 v3 : List ℕ) : List Entry :=
  [⟨1, v1, 1/2⟩, ⟨2, v2, 1/4⟩, ⟨3, v3, 1/8⟩]

/-- The weight-`1/2` sibling subtree of the `(v1, 0.5)` leaf in the
concrete scenario. -/
def sub9 (v2 v3 : List ℕ) : Node :=
  .branch (.branch (.leaf ⟨3, v3, 1/8⟩) (.leaf ⟨4, [], 1/8⟩)) (.leaf ⟨2, v2, 1/4⟩)

/-- The tree built from `entries9` (values symbolic: the shape depends
only on the weights). -/
def tree9 (v1 v2 v3 : List ℕ) : MerkleTree :=
  ⟨.branch (sub9 v2 v3) (.leaf ⟨1, v1, 1/2⟩),
   [(⟨3, v3, 1/8⟩, [false, false, false]), (⟨4, [], 1/8⟩, [false, false, true]),
    (⟨2, v2, 1/4⟩, [false, true]), (⟨1, v1, 1/2⟩, [true])]⟩

theorem build9 (v1 v2 v3 : List ℕ) :
    newMerkleTree (entries9 v1 v2 v3) = .ok (tree9 v1 v2 v3) := by
  simp only [newMerkleTree, entries9, tree9, sub9]
  norm_num [validWeight, validWeights]
  rw [padLoop_found (1/8) 4 _ (1/8) (by norm_num)
    (by norm_num [validWeights, List.find?])]
  rw [padLoop_nonpos _ _ _ (by norm_num)]
  norm_num [padEntry, List.insertionSort, List.orderedInsert]
  rw [newTree_cons₂ _ _ _ (by norm_num)]
  rw [buildLoop_eqw _ _ _ _ (by norm_num [nodeWeight]) (by norm_num [nodeWeight])]
  rw [buildLoop_eqw _ _ _ _ (by norm_num [nodeWeight]) (by norm_num [nodeWeight])]
  rw [buildLoop_nil]
  norm_num [prependPath]

theorem prove9 (H : List ℕ → List ℕ) (v1 v2 v3 : List ℕ) :
    (tree9 v1 v2 v3).prove H ⟨1, v1, 1/2⟩ =
      .ok [H v1, nodeHash H (sub9 v2 v3)] := by
  rw [MerkleTree.prove]
  simp [tree9, List.filter, proofList, sub9, nodeHash]

theorem verify9 (H : List ℕ → List ℕ) (v1 v2 v3 : List ℕ) :
    verifyProof H ((tree9 v1 v2 v3).treeHash H) [H v1, nodeHash H (sub9 v2 v3)] =
      .ok (if byteLt (H v1) (nodeHash H (sub9 v2 v3)) then ((0 : ℚ), 1/2)
           else (1/2, 1)) := by
  have hroot : (tree9 v1 v2 v3).treeHash H =
      (if byteLt (nodeHash H (sub9 v2 v3)) (H v1) then
        H (nodeHash H (sub9 v2 v3) ++ H v1)
      else H (H v1 ++ nodeHash H (sub9 v2 v3))) := rfl
  cases hb : byteLt (H v1) (nodeHash H (sub9 v2 v3)) with
  | true =>
    have hb' : byteLt (nodeHash H (sub9 v2 v3)) (H v1) = false := byteLt_asymm hb
    simp only [verifyProof, verifyLoop, hb, if_true, hroot, hb']
    norm_num
  | false =>
    simp only [verifyProof, verifyLoop, hb, hroot]
    cases hb2 : byteLt (nodeHash H (sub9 v2 v3)) (H v1) with
    | true =>
      norm_num [hb2]
    | false =>
      have heq := byteLt_antisymm hb hb2
      norm_num [hb2, heq]

/-- C9 amended.  For all values `v1 v2 v3` and every hash `H`, the
entry list `[(v1,1/2), (v2,1/4), (v3,1/8)]` builds successfully after
padding with exactly one synthetic entry of weight `1/8`, and
`Prove` + `VerifyProof` on `(v1, 1/2)` yield an interval of width
exactly `1/2` — which is `[0, 1/2)` precisely when the digest of `v1`
is lexicographically smaller than its sibling subtree digest, and
`[1/2, 1)` otherwise.  (The claimed unconditional `[0, 1/2)` is
refuted by the counterexample below: the decoded position follows
hash-byte order, not the structural order.) -/
theorem concrete_scenario (H : List ℕ → List ℕ) (v1 v2 v3 : List ℕ) :
    newMerkleTree (entries9 v1 v2 v3) = .ok (tree9 v1 v2 v3) ∧
    padLoop (1 - (((entries9 v1 v2 v3).map (fun e => e.weight)).sum)) 4
        (entries9 v1 v2 v3) = entries9 v1 v2 v3 ++ [⟨4, [], 1/8⟩] ∧
    ∃ pf, (tree9 v1 v2 v3).prove H ⟨1, v1, 1/2⟩ = .ok pf ∧
      verifyProof H ((tree9 v1 v2 v3).treeHash H) pf =
        .ok (if byteLt (H v1) (nodeHash H (sub9 v2 v3)) then ((0 : ℚ), 1/2)
             else (1/2, 1)) := by
  refine ⟨build9 v1 v2 v3, ?_, [H v1, nodeHash H (sub9 v2 v3)],
    prove9 H v1 v2 v3, verify9 H v1 v2 v3⟩
  have hsum : (((entries9 v1 v2 v3).map (fun e => e.weight)).sum) = 7/8 := by
    norm_num [entries9]
  rw [hsum]
  rw [padLoop_found _ _ _ (1/8) (by norm_num)
    (by norm_num [validWeights, List.find?])]
  rw [padLoop_nonpos _ _ _ (by norm_num)]
  rfl

/-- Counterexample to C9 as stated: with a legitimate instance of the
pluggable hash (the constant hash) and values `[1] [2] [3]`, the
entries build exactly as claimed, but `Prove` + `VerifyProof` on
`(v1, 1/2)` decode the interval `[1/2, 1)`, not `[0, 1/2)`: the decoded
position follows lexicographic digest order, not the structural
position of the leaf. -/
theorem concrete_scenario_interval_counterexample :
    newMerkleTree (entries9 [1] [2] [3]) = .ok (tree9 [1] [2] [3]) ∧
    ∃ pf, (tree9 [1] [2] [3]).prove (fun _ => [0]) ⟨1, [1], 1/2⟩ = .ok pf ∧
      verifyProof (fun _ => [0])
        ((tree9 [1] [2] [3]).treeHash (fun _ => [0])) pf = .ok (1/2, 1) ∧
      ¬ (((1 : ℚ)/2, (1 : ℚ)) = ((0 : ℚ), (1 : ℚ)/2)) := by
  refine ⟨build9 [1] [2] [3],
    [(fun _ => [0] : List ℕ → List ℕ) [1],
     nodeHash (fun _ => [0]) (sub9 [2] [3])],
    prove9 (fun _ => [0]) [1] [2] [3], ?_, by norm_num⟩
  rw [verify9 (fun _ => [0]) [1] [2] [3]]
  rfl

end GoMerkleTree

namespace GoMerkleTree

theorem byteLt_total_of_ne {a b : List ℕ} (h : a ≠ b) :
    byteLt a b = true ∨ byteLt b a = true := by
  cases h1 : byteLt a b with
  | true => exact Or.inl rfl
  | false =>
    cases h2 : byteLt b a with
    | true => exact Or.inr rfl
    | false => exact absurd (byteLt_antisymm h1 h2) h

/-- The structural interval list is the pointwise image of the leaf
enumeration under the `VerifyProof` position formula. -/
theorem structIvs_eq_map (H : List ℕ → List ℕ) :
    ∀ (t : Node) (lo w : ℚ),
      structIvs H t lo w = (enumLeaves t).map (fun lp =>
        (lo + w * (posOf H t lp.2 / 2 ^ lp.2.length),
         lo + w * ((posOf H t lp.2 + 1) / 2 ^ lp.2.length))) := by
  intro t
  induction t with
  | leaf e =>
    intro lo w
    simp [structIvs, enumLeaves, posOf]
  | branch l r ihl ihr =>
    intro lo w
    rw [structIvs, enumLeaves_branch]
    rw [List.map_append, ihl, ihr]
    congr 1
    · rw [prependPath, List.map_map]
      refine List.map_congr_left ?_
      rintro ⟨e, p⟩ hmem
      simp only [Function.comp_apply, posOf, List.length_cons]
      have hpow : ((2 : ℚ) ^ (p.length + 1)) = 2 ^ p.length * 2 := by
        rw [pow_succ]
      cases hb : byteLt (nodeHash H l) (nodeHash H r) with
      | true =>
        simp only [if_true, Prod.mk.injEq]
        constructor <;>
          · rw [hpow]
            have h2 : ((2 : ℚ) ^ p.length) ≠ 0 := by positivity
            field_simp
            ring
      | false =>
        simp only [Bool.false_eq_true, if_false, Prod.mk.injEq]
        constructor <;>
          · rw [hpow]
            have h2 : ((2 : ℚ) ^ p.length) ≠ 0 := by positivity
            field_simp
            ring
    · rw [prependPath, List.map_map]
      refine List.map_congr_left ?_
      rintro ⟨e, p⟩ hmem
      simp only [Function.comp_apply, posOf, List.length_cons]
      have hpow : ((2 : ℚ) ^ (p.length + 1)) = 2 ^ p.length * 2 := by
        rw [pow_succ]
      cases hb : byteLt (nodeHash H r) (nodeHash H l) with
      | true =>
        simp only [if_true, Prod.mk.injEq]
        constructor <;>
          · rw [hpow]
            have h2 : ((2 : ℚ) ^ p.length) ≠ 0 := by positivity
            field_simp
            ring
      | false =>
        simp only [Bool.false_eq_true, if_false, Prod.mk.injEq]
        constructor <;>
          · rw [hpow]
            have h2 : ((2 : ℚ) ^ p.length) ≠ 0 := by positivity
            field_simp
            ring

/-- Under separation, the structural interval list is a permutation of
the position-ordered interval list. -/
theorem structIvs_perm_ordered (H : List ℕ → List ℕ) :
    ∀ (t : Node), Separated H t → ∀ (lo w : ℚ),
      List.Perm (structIvs H t lo w) (orderedIvs H t lo w) := by
  intro t
  induction t with
  | leaf e => intro _ lo w; rw [structIvs, orderedIvs]
  | branch l r ihl ihr =>
    intro hsep lo w
    obtain ⟨hne, hsl, hsr⟩ := hsep
    rw [structIvs, orderedIvs]
    rcases byteLt_total_of_ne hne with hb | hb
    · have hb' : byteLt (nodeHash H r) (nodeHash H l) = false := byteLt_asymm hb
      rw [hb, hb', if_pos rfl]
      simp only [if_true, Bool.false_eq_true, if_false, add_zero]
      exact (ihl hsl lo (w/2)).append (ihr hsr (lo + w/2) (w/2))
    · have hb' : byteLt (nodeHash H l) (nodeHash H r) = false := byteLt_asymm hb
      rw [hb, hb']
      simp only [Bool.false_eq_true, if_false, if_true, add_zero]
      refine List.Perm.trans
        (((ihl hsl (lo + w/2) (w/2)).append (ihr hsr lo (w/2))))
        (List.perm_append_comm)

theorem chainFrom_append {a m b : ℚ} :
    ∀ {A B : List (ℚ × ℚ)}, ChainFrom a m A → ChainFrom m b B →
      ChainFrom a b (A ++ B) := by
  intro A
  induction A generalizing a with
  | nil =>
    intro B hA hB
    have : a = m := hA
    rw [List.nil_append, this]
    exact hB
  | cons x rest ih =>
    intro B hA hB
    obtain ⟨hx, hlt, hrest⟩ := hA
    exact ⟨hx, hlt, ih hrest hB⟩

/-- Under separation, the ordered interval list of a subtree over
`[lo, lo+w)` tiles it contiguously. -/
theorem orderedIvs_chain (H : List ℕ → List ℕ) :
    ∀ (t : Node), Separated H t → ∀ (lo w : ℚ), 0 < w →
      ChainFrom lo (lo + w) (orderedIvs H t lo w) := by
  intro t
  induction t with
  | leaf e =>
    intro _ lo w hw
    exact ⟨rfl, by linarith, rfl⟩
  | branch l r ihl ihr =>
    intro hsep lo w hw
    obtain ⟨hne, hsl, hsr⟩ := hsep
    rw [orderedIvs]
    have hw2 : 0 < w / 2 := by linarith
    have hmid : lo + w / 2 + w / 2 = lo + w := by ring
    by_cases hb : byteLt (nodeHash H l) (nodeHash H r) = true
    · rw [if_pos hb]
      refine chainFrom_append (ihl hsl lo (w/2) hw2) ?_
      rw [← hmid] at *
      exact ihr hsr (lo + w/2) (w/2) hw2
    · rw [if_neg hb]
      refine chainFrom_append (ihr hsr lo (w/2) hw2) ?_
      rw [← hmid] at *
      exact ihl hsl (lo + w/2) (w/2) hw2

theorem chainFrom_start_ge {b : ℚ} :
    ∀ {l : List (ℚ × ℚ)} {a : ℚ}, ChainFrom a b l → ∀ iv ∈ l, a ≤ iv.1 := by
  intro l
  induction l with
  | nil => intro a _ iv hiv; exact absurd hiv (List.not_mem_nil iv)
  | cons x rest ih =>
    rintro a ⟨hx, hlt, hrest⟩ iv hiv
    rcases List.mem_cons.mp hiv with rfl | hiv'
    · exact le_of_eq hx.symm
    · have := ih hrest iv hiv'
      calc a = x.1 := hx.symm
      _ ≤ x.2 := le_of_lt hlt
      _ ≤ iv.1 := this

theorem chainFrom_sorted_lt {b : ℚ} :
    ∀ {l : List (ℚ × ℚ)} {a : ℚ}, ChainFrom a b l →
      List.Sorted (fun x y : ℚ × ℚ => x.1 < y.1) l := by
  intro l
  induction l with
  | nil => intro a _; exact List.sorted_nil
  | cons x rest ih =>
    rintro a ⟨hx, hlt, hrest⟩
    refine List.sorted_cons.mpr ⟨?_, ih hrest⟩
    intro iv hiv
    have := chainFrom_start_ge hrest iv hiv
    linarith

end GoMerkleTree

namespace GoMerkleTree

instance : IsTotal (ℚ × ℚ) (fun a b : ℚ × ℚ => a.1 ≤ b.1) :=
  ⟨fun a b => le_total a.1 b.1⟩

instance : IsTrans (ℚ × ℚ) (fun a b : ℚ × ℚ => a.1 ≤ b.1) :=
  ⟨fun _ _ _ h1 h2 => le_trans h1 h2⟩

instance : IsAntisymm (ℚ × ℚ) (fun a b : ℚ × ℚ => a.1 < b.1) :=
  ⟨fun _ _ h1 h2 => absurd (lt_trans h1 h2) (lt_irrefl _)⟩

/-- A weakly-sorted permutation of a strictly-sorted interval list is
that list itself. -/
theorem perm_sorted_eq {l1 l2 : List (ℚ × ℚ)} (hp : List.Perm l1 l2)
    (h1 : List.Sorted (fun x y : ℚ × ℚ => x.1 ≤ y.1) l1)
    (h2 : List.Sorted (fun x y : ℚ × ℚ => x.1 < y.1) l2) : l1 = l2 := by
  have hne2 : List.Pairwise (fun a b : ℚ × ℚ => a.1 ≠ b.1) l2 :=
    h2.imp (fun h => ne_of_lt h)
  have hnodup2 : (l2.map Prod.fst).Nodup := List.pairwise_map.mpr hne2
  have hnodup1 : (l1.map Prod.fst).Nodup := ((hp.map Prod.fst).nodup_iff).mpr hnodup2
  have hne1 : List.Pairwise (fun a b : ℚ × ℚ => a.1 ≠ b.1) l1 :=
    List.pairwise_map.mp hnodup1
  have h1' : List.Sorted (fun x y : ℚ × ℚ => x.1 < y.1) l1 :=
    (h1.and hne1).imp (fun h => lt_of_le_of_ne h.1 h.2)
  exact List.eq_of_perm_of_sorted hp h1' h2

end GoMerkleTree

namespace GoMerkleTree

theorem le_foldr_max (l : List ℕ) (x : ℕ) (hx : x ∈ l) :
    x ≤ l.foldr max 0 := by
  induction l with
  | nil => exact absurd hx (List.not_mem_nil x)
  | cons a rest ih =>
    rw [List.foldr_cons]
    rcases List.mem_cons.mp hx with rfl | hx'
    · exact le_max_left _ _
    · exact le_trans (ih hx') (le_max_right _ _)

/-- With pairwise-distinct leaf ids, the `Prove` scan for a leaf entry
keeps exactly that leaf. -/
theorem filter_id_singleton :
    ∀ (lvs : List (Entry × List Bool)),
      (lvs.map (fun lp => lp.1.id)).Nodup →
      ∀ lp ∈ lvs, lvs.filter (fun x => x.1.id == lp.1.id) = [lp] := by
  intro lvs
  induction lvs with
  | nil => intro _ lp hlp; exact absurd hlp (List.not_mem_nil lp)
  | cons a rest ih =>
    intro hN lp hlp
    rw [List.map_cons, List.nodup_cons] at hN
    obtain ⟨hnotin, hNrest⟩ := hN
    rcases List.mem_cons.mp hlp with rfl | hlp'
    · rw [List.filter_cons_of_pos (by simp)]
      have hempty : rest.filter (fun x => x.1.id == lp.1.id) = [] := by
        rw [List.filter_eq_nil_iff]
        intro b hb
        simp only [beq_iff_eq]
        intro hc
        exact hnotin (by
          rw [← hc]
          exact List.mem_map.mpr ⟨b, hb, rfl⟩)
      rw [hempty]
    · have hne : a.1.id ≠ lp.1.id := by
        intro hc
        exact hnotin (by
          rw [hc]
          exact List.mem_map.mpr ⟨lp, hlp', rfl⟩)
      rw [List.filter_cons_of_neg (by simpa using hne)]
      exact ih hNrest lp hlp'

/-- With unique ids and valid leaf paths, `collectIntervals` succeeds
on a list of leaf entries and returns each leaf's own decoded
interval. -/
theorem collectIntervals_spec (H : List ℕ → List ℕ) (t : MerkleTree)
    (hroot : ∀ lp ∈ t.leaves, subtreeAt t.root lp.2 = some (.leaf lp.1))
    (huniq : ∀ lp ∈ t.leaves,
      t.leaves.filter (fun x => x.1.id == lp.1.id) = [lp]) :
    ∀ (L : List (Entry × List Bool)), (∀ lp ∈ L, lp ∈ t.leaves) →
      collectIntervals H t (L.map Prod.fst) =
        .ok (L.map (fun lp =>
          (posOf H t.root lp.2 / 2 ^ lp.2.length,
           (posOf H t.root lp.2 + 1) / 2 ^ lp.2.length))) := by
  intro L
  induction L with
  | nil => intro _; rfl
  | cons lp L' ih =>
    intro hmem
    have hlp : lp ∈ t.leaves := hmem lp (by simp)
    have hprove : t.prove H lp.1 = .ok (proofList H t.root lp.2) := by
      rw [MerkleTree.prove, huniq lp hlp]
      rfl
    have hverify : verifyProof H (t.treeHash H) (proofList H t.root lp.2) =
        .ok (posOf H t.root lp.2 / 2 ^ lp.2.length,
          (posOf H t.root lp.2 + 1) / 2 ^ lp.2.length) :=
      verifyProof_proofList H t.root lp.2 lp.1 (hroot lp hlp)
    have hih := ih (fun x hx => hmem x (by simp [hx]))
    rw [List.map_cons, collectIntervals]
    simp only [hprove, hverify, hih, List.map_cons]

end GoMerkleTree

namespace GoMerkleTree

/-- C2 amended.  Partition property with the two hypotheses the code
actually requires: the input entries are pairwise-distinct objects
(distinct ids — in Go, distinct allocations), and in the built tree
every branch combines two distinct child digests (no hash ties, the
generic situation for a collision-resistant hash on distinct values).
Then collecting `VerifyProof(RootDigest, Prove(e))` for every leaf
entry — synthetic padding entries included — and sorting the intervals
by start point yields a contiguous chain of nonempty half-open
intervals from `0` to `1`: no gap, no overlap.  (Without these
hypotheses the property fails; see the counterexample, where two
equal-value sibling leaves both decode to `[1/2, 1)`.) -/
theorem partition_amended (H : List ℕ → List ℕ) (entries : List Entry)
    (t : MerkleTree) (hb : newMerkleTree entries = .ok t)
    (hids : (entries.map (fun e => e.id)).Nodup)
    (hsep : Separated H t.root) :
    ∃ ivs, collectIntervals H t (t.leaves.map Prod.fst) = .ok ivs ∧
      ChainFrom 0 1 (sortByStart ivs) := by
  simp only [newMerkleTree] at hb
  split at hb
  · split at hb
    · cases hb
    · rename_i hall hsum
      split at hb
      · cases hb
      · cases hb
      · rename_i root lvs hnt
        cases hb
        have hval : ∀ e ∈ entries, e.weight ∈ validWeights := fun e he =>
          (validWeight_iff e.weight).mp (List.all_eq_true.mp hall e he)
        have hsum' : (entries.map (fun e => e.weight)).sum ≤ 1 := not_lt.mp hsum
        obtain ⟨pads, hpadeq, hpadlen, hpadsum, hpadprops, hpadpair⟩ :=
          padding_bounded entries ((entries.map (fun e => e.id)).foldr max 0 + 1)
            hval hsum'
        rw [hpadeq] at hnt
        set sorted := (entries ++ pads).insertionSort
          (fun a b : Entry => a.weight ≤ b.weight) with hsorted_def
        have hperm0 : List.Perm sorted (entries ++ pads) :=
          List.perm_insertionSort _ _
        rcases newTree_ok_inv sorted.length sorted le_rfl _ _ hnt with
          ⟨hnil, _, _⟩ | ⟨rt, hro, hlvs, hmap⟩
        · exfalso
          rw [hnil] at hperm0
          have hpe : entries ++ pads = [] := hperm0.symm.eq_nil
          rw [hpe] at hpadsum
          norm_num at hpadsum
        · injection hro with hrt
          subst hrt
          have hfreshgt : ∀ e ∈ entries,
              e.id < (entries.map (fun x => x.id)).foldr max 0 + 1 := fun e he =>
            Nat.lt_succ_of_le (le_foldr_max _ _ (List.mem_map.mpr ⟨e, he, rfl⟩))
          have hpadded_nodup : ((entries ++ pads).map (fun e => e.id)).Nodup := by
            rw [List.map_append, List.nodup_append]
            refine ⟨hids, ?_, ?_⟩
            · exact List.pairwise_map.mpr
                (hpadpair.imp (fun h => Nat.ne_of_lt h))
            · intro x hx1 hx2
              obtain ⟨e, he, rfl⟩ := List.mem_map.mp hx1
              obtain ⟨p, hp, hpe⟩ := List.mem_map.mp hx2
              have h1 := hfreshgt e he
              have h2 := (hpadprops p hp).2.2
              omega
          have hsorted_nodup : (sorted.map (fun e => e.id)).Nodup :=
            ((hperm0.map _).nodup_iff).mpr hpadded_nodup
          have hleaves_ids : (lvs.map (fun lp => lp.1.id)).Nodup := by
            rw [hlvs]
            have hcomp : (enumLeaves root).map (fun lp => lp.1.id) =
                ((enumLeaves root).map Prod.fst).map (fun e => e.id) := by
              rw [List.map_map]
              rfl
            rw [hcomp, hmap]
            exact hsorted_nodup
          have hroot_paths : ∀ lp ∈ lvs,
              subtreeAt root lp.2 = some (.leaf lp.1) := by
            intro lp hlp
            rw [hlvs] at hlp
            refine enumLeaves_subtreeAt root lp.1 lp.2 ?_
            rcases lp with ⟨a, b⟩
            exact hlp
          have huniq := filter_id_singleton lvs hleaves_ids
          have hcollect := collectIntervals_spec H ⟨root, lvs⟩ hroot_paths huniq
            lvs (fun lp h => h)
          refine ⟨_, hcollect, ?_⟩
          have hmap_ivs : lvs.map (fun lp =>
              (posOf H root lp.2 / 2 ^ lp.2.length,
               (posOf H root lp.2 + 1) / 2 ^ lp.2.length)) =
              structIvs H root 0 1 := by
            rw [hlvs, structIvs_eq_map]
            refine List.map_congr_left ?_
            intro lp _
            norm_num
          have hperm2 : List.Perm (structIvs H root 0 1) (orderedIvs H root 0 1) :=
            structIvs_perm_ordered H root hsep 0 1
          have hchain : ChainFrom 0 (0 + 1) (orderedIvs H root 0 1) :=
            orderedIvs_chain H root hsep 0 1 one_pos
          rw [show ((0 : ℚ) + 1) = 1 by norm_num] at hchain
          have hsort_sorted : List.Sorted (fun a b : ℚ × ℚ => a.1 ≤ b.1)
              (sortByStart (lvs.map (fun lp =>
                (posOf H root lp.2 / 2 ^ lp.2.length,
                 (posOf H root lp.2 + 1) / 2 ^ lp.2.length)))) :=
            List.sorted_insertionSort _ _
          have hsort_perm : List.Perm
              (sortByStart (lvs.map (fun lp =>
                (posOf H root lp.2 / 2 ^ lp.2.length,
                 (posOf H root lp.2 + 1) / 2 ^ lp.2.length))))
              (orderedIvs H root 0 1) := by
            refine List.Perm.trans (List.perm_insertionSort _ _) ?_
            rw [hmap_ivs]
            exact hperm2
          have hfinal := perm_sorted_eq hsort_perm hsort_sorted
            (chainFrom_sorted_lt hchain)
          rw [hfinal]
          exact hchain
  · cases hb

end GoMerkleTree

namespace GoMerkleTree

/-- Two distinct entries with the same value and weight: they become
sibling leaves with identical digests. -/
def exTreeC : MerkleTree :=
  ⟨.branch (.leaf ⟨1, [7], 1/2⟩) (.leaf ⟨2, [7], 1/2⟩),
   [(⟨1, [7], 1/2⟩, [false]), (⟨2, [7], 1/2⟩, [true])]⟩

theorem build_exC :
    newMerkleTree [⟨1, [7], 1/2⟩, ⟨2, [7], 1/2⟩] = .ok exTreeC := by
  simp only [newMerkleTree, exTreeC]
  norm_num [validWeight, validWeights]
  rw [padLoop_nonpos _ _ _ (by norm_num)]
  norm_num [List.insertionSort, List.orderedInsert]
  rw [newTree_cons₂ _ _ _ (by norm_num)]
  rw [buildLoop_nil]

/-- Counterexample to C2 as stated: two distinct entries carrying the
same value and weight `1/2` are accepted by `NewMerkleTree`, but both
leaves decode to the interval `[1/2, 1)` (their digests tie, and the
verifier shifts `pos` for both), so the collected intervals, sorted by
start, do not tile `[0,1)`: they start at `1/2`, overlap, and leave
`[0,1/2)` uncovered. -/
theorem partition_counterexample :
    newMerkleTree [⟨1, [7], 1/2⟩, ⟨2, [7], 1/2⟩] = .ok exTreeC ∧
    ((([⟨1, [7], 1/2⟩, ⟨2, [7], 1/2⟩] : List Entry).map (fun e => e.id)).Nodup) ∧
    collectIntervals consHash exTreeC (exTreeC.leaves.map Prod.fst) =
      .ok [(1/2, 1), (1/2, 1)] ∧
    ¬ ChainFrom 0 1 (sortByStart [((1 : ℚ)/2, (1 : ℚ)), ((1 : ℚ)/2, (1 : ℚ))]) := by
  refine ⟨build_exC, by simp, ?_, ?_⟩
  · have hp1 : MerkleTree.prove consHash exTreeC ⟨1, [7], 1/2⟩ =
        .ok [[0, 7], [0, 7]] := by
      rw [MerkleTree.prove]
      simp [exTreeC, List.filter, proofList, nodeHash, consHash]
    have hp2 : MerkleTree.prove consHash exTreeC ⟨2, [7], 1/2⟩ =
        .ok [[0, 7], [0, 7]] := by
      rw [MerkleTree.prove]
      simp [exTreeC, List.filter, proofList, nodeHash, consHash]
    have hroot : MerkleTree.treeHash consHash exTreeC = [0, 0, 7, 0, 7] := by
      simp [MerkleTree.treeHash, exTreeC, nodeHash, consHash, byteLt,
        bytesCompare]
    have hv : verifyProof consHash [0, 0, 7, 0, 7] [[0, 7], [0, 7]] =
        .ok (1/2, 1) := by
      simp [verifyProof, verifyLoop, byteLt, bytesCompare, consHash]
    have hmap : exTreeC.leaves.map Prod.fst =
        [⟨1, [7], 1/2⟩, ⟨2, [7], 1/2⟩] := rfl
    rw [hmap]
    simp only [collectIntervals, hp1, hp2, hroot, hv]
  · intro h
    have hs : sortByStart [((1 : ℚ)/2, (1 : ℚ)), ((1 : ℚ)/2, (1 : ℚ))] =
        [((1 : ℚ)/2, (1 : ℚ)), ((1 : ℚ)/2, (1 : ℚ))] := by
      norm_num [sortByStart, List.insertionSort, List.orderedInsert]
    rw [hs] at h
    obtain ⟨h1, _⟩ := h
    norm_num at h1

/-- Witness for the amended C2 at the README example with the injective
sample hash. -/
theorem partition_amended_witness :
    ∃ ivs, collectIntervals consHash exTreeA (exTreeA.leaves.map Prod.fst) =
        .ok ivs ∧ ChainFrom 0 1 (sortByStart ivs) :=
  partition_amended consHash exEntriesA exTreeA build_exA
    (by simp [exEntriesA])
    (by
      refine ⟨?_, ⟨?_, trivial, trivial⟩, trivial⟩ <;>
        simp [exTreeA, nodeHash, consHash, byteLt, bytesCompare])

end GoMerkleTree
